import Mathlib

/-!
Verification development for the Minesweeper board and agents of
`minesweeper_ai.py`.  The Python classes `Board`, `Phase1Agent` and
`Phase2Agent` are shallowly embedded as executable Lean definitions; the
theorems at the end of the file settle the specification claims about them.

Modelling conventions:
* coordinates are pairs of integers, as in the Python code;
* the 2-D boolean/int arrays of `Board` become functions `Coord → Bool/Int`;
* the seeded pseudo-random generator `random.Random(seed)` is modelled by an
  explicit stream `Nat → Nat` of draws (a pure function of the seed), and the
  *process-global* generator used by `random.choice` in `Phase2Agent` is a
  separate stream, since its state is not derived from any constructor seed;
* the breadth-first flood fill runs on explicit fuel; `fillFuel` is large
  enough for the queue to drain (proved below via a potential function).
-/

namespace Minesweeper

abbrev Coord := Int × Int

/-- Board state: the fields of the Python `Board` class.  `mineF`, `adjF`,
`revF`, `flagF` model the `_mine`, `_adj`, `_revealed`, `_flagged` grids,
`gameOver` models `_game_over`, and `winCached` models `_win_cached`
(`none` = Python `None`). -/
structure Board where
  rows : Int
  cols : Int
  minesCount : Nat
  mineF : Coord → Bool
  adjF : Coord → Int
  revF : Coord → Bool
  flagF : Coord → Bool
  gameOver : Bool
  winCached : Option Bool

/-- Neighbour offsets in the order produced by the `dr`/`dc` loops of
`Board.neighbors`. -/
def deltas : List Coord :=
  [(-1, -1), (-1, 0), (-1, 1), (0, -1), (0, 1), (1, -1), (1, 0), (1, 1)]

/-- In-bounds test `0 <= rr < rows and 0 <= cc < cols`. -/
def inB (rows cols : Int) (p : Coord) : Bool :=
  decide (0 ≤ p.1) && decide (p.1 < rows) && decide (0 ≤ p.2) && decide (p.2 < cols)

/-- `Board.neighbors`: the in-bounds neighbours of `p`, in source order. -/
def nbrsIn (rows cols : Int) (p : Coord) : List Coord :=
  (deltas.map (fun d => (p.1 + d.1, p.2 + d.2))).filter (fun q => inB rows cols q)

def Board.neighbors (b : Board) (p : Coord) : List Coord :=
  nbrsIn b.rows b.cols p

def Board.inBounds (b : Board) (p : Coord) : Bool :=
  inB b.rows b.cols p

/-- The cell list `[(r,c) for r in range(rows) for c in range(cols)]`,
in the same row-major order. -/
def cellsOf (rows cols : Int) : List Coord :=
  (List.map Int.ofNat (List.range rows.toNat)) ×ˢ
    (List.map Int.ofNat (List.range cols.toNat))

def Board.cells (b : Board) : List Coord := cellsOf b.rows b.cols

/-- Model of `random.Random(seed).shuffle(cells)`: a deterministic permutation
of the list selected by the seed-derived draw stream.  At each step the
stream picks an index into the remaining list; the chosen element is moved to
the front.  The first argument counts the remaining length (the top-level
call uses `l.length`), keeping the recursion structural and executable. -/
def pyShuffle (stream : Nat → Nat) : Nat → List Coord → List Coord
  | 0, l => l
  | n + 1, l =>
    let k := stream n % l.length
    l.getD k (0, 0) :: pyShuffle stream n (l.eraseIdx k)

/-- `Board.__init__`: place the first `mines` cells of the shuffled cell list
as mines and precompute adjacency counts (`-1` sentinel on mines). -/
def mkBoard (stream : Nat → Nat) (rows cols : Int) (mines : Nat) : Board :=
  let cells := cellsOf rows cols
  let mineCells := (pyShuffle stream cells.length cells).take mines
  let mineF : Coord → Bool := fun p => decide (p ∈ mineCells)
  { rows := rows
    cols := cols
    minesCount := mines
    mineF := mineF
    adjF := fun p =>
      if mineF p then -1 else ((nbrsIn rows cols p).countP mineF : Int)
    revF := fun _ => false
    flagF := fun _ => false
    gameOver := false
    winCached := none }

/-- Point update of the revealed grid. -/
def setRev (b : Board) (p : Coord) : Board :=
  { b with revF := fun q => if q = p then true else b.revF q }

/-- Point update of the flagged grid. -/
def setFlag (b : Board) (p : Coord) (v : Bool) : Board :=
  { b with flagF := fun q => if q = p then v else b.flagF q }

/-- `Board.flag`. -/
def Board.flag (b : Board) (p : Coord) : Board :=
  if b.gameOver || b.revF p then b else setFlag b p true

/-- `Board.unflag`. -/
def Board.unflag (b : Board) (p : Coord) : Board :=
  if b.gameOver then b else setFlag b p false

/-- `Board._reveal_region`: breadth-first flood fill.  The deque is a list
popped at the head and appended at the tail, exactly the FIFO discipline of
the source; the extra fuel argument only bounds the recursion and `fillFuel`
below always suffices for the queue to drain. -/
def revealRegion : Nat → Board → List Coord → Board
  | 0, b, _ => b
  | _ + 1, b, [] => b
  | fuel + 1, b, p :: q =>
    if b.revF p || b.flagF p then revealRegion fuel b q
    else
      let b2 := setRev b p
      if b.adjF p = 0 then
        revealRegion fuel b2
          (q ++ (b.neighbors p).filter (fun nb => !b2.revF nb && !b2.flagF nb))
      else revealRegion fuel b2 q

def fillFuel (b : Board) : Nat := 9 * b.cells.length + 2

/-- Potential of the flood-fill worklist: every step strictly decreases it,
so `fillFuel` fuel always drains the queue. -/
def fillPhi (b : Board) (q : List Coord) : Nat :=
  9 * b.cells.countP (fun p => !b.revF p) + q.length

/-- The win condition scanned by `_check_win`: every non-mine cell is
revealed. -/
def Board.allNonMineRev (b : Board) : Bool :=
  b.cells.all (fun p => b.mineF p || b.revF p)

/-- `Board._check_win`: transition to Won when every non-mine cell is
revealed. -/
def Board.checkWin (b : Board) : Board :=
  if b.gameOver then b
  else if b.allNonMineRev then
    { b with gameOver := true, winCached := some true }
  else b

/-- `Board.reveal`: returns `(alive, newBoard)`. -/
def Board.reveal (b : Board) (p : Coord) : Bool × Board :=
  if b.gameOver || b.flagF p then (true, b)
  else if b.revF p then (true, b)
  else if b.mineF p then
    (false, { setRev b p with gameOver := true, winCached := some false })
  else
    (true, (revealRegion (fillFuel b) b [p]).checkWin)

/-- Terminal status of a board, derived as in the spec's state machine. -/
inductive GStatus
  | inProgress
  | lost
  | won
deriving DecidableEq

def Board.status (b : Board) : GStatus :=
  if b.gameOver = false then .inProgress
  else if b.winCached = some true then .won
  else .lost

/-- `Board.won`: `bool(self._win_cached)`. -/
def Board.hasWon (b : Board) : Bool := b.winCached.getD false

/-! ### Knowledge extraction and the Phase 1 agent -/

/-- The visibility snapshot of `Board.state_for_agent`: `numbers` lists the
revealed, unflagged cells with their adjacency value in row-major order
(Python dict insertion order); `covered` and `flagged` are the remaining
buckets, in the same pass order. -/
structure Snapshot where
  numbers : List (Coord × Int)
  covered : List Coord
  flagged : List Coord

def Board.stateForAgent (b : Board) : Snapshot :=
  { numbers := b.cells.filterMap (fun p =>
      if b.flagF p then none
      else if b.revF p then some (p, b.adjF p) else none)
    covered := b.cells.filter (fun p => !b.flagF p && !b.revF p)
    flagged := b.cells.filter (fun p => b.flagF p) }

/-- `neighbor_buckets`: the `(covered_neighbors, flagged_neighbors)` lists of
a cell, in neighbour order (a neighbour goes to `flagged` first, else to
`covered` if it is in the covered set). -/
def neighborBuckets (b : Board) (st : Snapshot) (cell : Coord) :
    List Coord × List Coord :=
  ((b.neighbors cell).filter
      (fun nb => !decide (nb ∈ st.flagged) && decide (nb ∈ st.covered)),
   (b.neighbors cell).filter (fun nb => decide (nb ∈ st.flagged)))

def covOf (b : Board) (st : Snapshot) (cell : Coord) : List Coord :=
  (neighborBuckets b st cell).1

def flgOf (b : Board) (st : Snapshot) (cell : Coord) : List Coord :=
  (neighborBuckets b st cell).2

/-- Agent actions: the flag/reveal pairs returned by `choose_action`. -/
inductive Action
  | flagAct (p : Coord)
  | revealAct (p : Coord)
deriving DecidableEq

/-- First pass of `Phase1Agent.choose_action`: the certain-mine rule,
scanned over the numbered cells in order; fires on the first cell where
`number - flaggedCount == coveredCount > 0`, flagging the first covered
neighbour. -/
def spMinePass (b : Board) (st : Snapshot) : List (Coord × Int) → Option Action
  | [] => none
  | (cell, n) :: rest =>
    let cov := covOf b st cell
    let flg := flgOf b st cell
    if n - (flg.length : Int) = (cov.length : Int) ∧ 0 < cov.length then
      some (Action.flagAct cov.headI)
    else spMinePass b st rest

/-- Second pass: the certain-safe rule, `number == flaggedCount` with a
covered neighbour present; reveals the first covered neighbour. -/
def spSafePass (b : Board) (st : Snapshot) : List (Coord × Int) → Option Action
  | [] => none
  | (cell, n) :: rest =>
    let cov := covOf b st cell
    let flg := flgOf b st cell
    if n = (flg.length : Int) ∧ 0 < cov.length then
      some (Action.revealAct cov.headI)
    else spSafePass b st rest

/-- `Phase1Agent.choose_action` together with the `_last_move_was_logic`
flag it sets.  The fallback models `self.rng.choice(list(covered))` by an
agent-stream-selected index into the covered list. -/
def phase1ChooseL (b : Board) (agentRnd : Nat) : Option Action × Bool :=
  let st := b.stateForAgent
  match spMinePass b st st.numbers with
  | some a => (some a, true)
  | none =>
    match spSafePass b st st.numbers with
    | some a => (some a, true)
    | none =>
      if st.covered.isEmpty then (none, false)
      else (some (Action.revealAct
        (st.covered.getD (agentRnd % st.covered.length) (0, 0))), false)

def phase1Choose (b : Board) (agentRnd : Nat) : Option Action :=
  (phase1ChooseL b agentRnd).1

/-! ### The CSP enumerator of `Phase2Agent.choose_action` -/

/-- Partial assignment: the `assign` dict, newest binding first. -/
abbrev PAssign := List (Coord × Bool)

def alookup : PAssign → Coord → Option Bool
  | [], _ => none
  | (w, bv) :: rest, v => if w = v then some bv else alookup rest v

/-- A local constraint `(set of vars inside comp, required mines)`. -/
structure LCon where
  vars : List Coord
  req : Int

/-- Number of variables of `S` assigned `True` (mine) by `π`. -/
def trueCount (π : PAssign) (S : List Coord) : Nat :=
  S.countP (fun v => alookup π v == some true)

/-- Number of variables of `S` assigned at all by `π`. -/
def definedCount (π : PAssign) (S : List Coord) : Nat :=
  S.countP (fun v => (alookup π v).isSome)

/-- `valid_partial`: no constraint's assigned mines exceed its requirement,
and assigned mines plus remaining unassigned variables can still reach it. -/
def validPartial (cons : List LCon) (π : PAssign) : Bool :=
  cons.all fun c =>
    decide ((trueCount π c.vars : Int) ≤ c.req) &&
    decide (c.req ≤ (trueCount π c.vars : Int)
      + ((c.vars.length - definedCount π c.vars : Nat) : Int))

/-- The hard check at a full assignment: every constraint's mine count
exactly equals its requirement. -/
def exactSat (cons : List LCon) (π : PAssign) : Bool :=
  cons.all fun c => decide ((trueCount π c.vars : Int) = c.req)

/-- The backtracking search `dfs` of `Phase2Agent.choose_action`, returning
the list of accepted full assignments in visit order (`True` branch first,
both branches pruned by `valid_partial`); the source keeps per-variable
tallies instead of the list, recovered below by `tallyVar`. -/
def dfsModels (cons : List LCon) : List Coord → PAssign → List PAssign
  | [], π => if exactSat cons π then [π] else []
  | v :: vs, π =>
    (if validPartial cons ((v, true) :: π) then dfsModels cons vs ((v, true) :: π)
     else []) ++
    (if validPartial cons ((v, false) :: π) then dfsModels cons vs ((v, false) :: π)
     else [])

/-- Specification-side brute force: all `2^n` extensions of `π` over the
variable list, without pruning. -/
def extAll : List Coord → PAssign → List PAssign
  | [], π => [π]
  | v :: vs, π => extAll vs ((v, true) :: π) ++ extAll vs ((v, false) :: π)

/-- The `counts[v] = [mine_count, total_count]` tallies accumulated over the
accepted models. -/
def tallyVar (models : List PAssign) (v : Coord) : Nat × Nat :=
  models.foldl
    (fun acc m => (acc.1 + (if alookup m v == some true then 1 else 0), acc.2 + 1))
    (0, 0)

/-- `p = mine_count / total` for a variable.  The Python quotient is a float,
but with at most `2^14` models both counts are far below the precision at
which float and exact rational comparison against `0`, `1` and other such
quotients could disagree, so the exact rational is a faithful model. -/
def mineProb (models : List PAssign) (v : Coord) : ℚ :=
  ((tallyVar models v).1 : ℚ) / ((tallyVar models v).2 : ℚ)

/-! ### Frontier partitioning and the Phase 2 decision -/

/-- `constraint_cells`: numbered cells with a nonempty covered-neighbour
list, with that list. -/
def constraintCells (b : Board) (st : Snapshot) : List (Coord × List Coord) :=
  st.numbers.filterMap fun cn =>
    let cov := covOf b st cn.1
    if cov.isEmpty then none else some (cn.1, cov)

/-- The frontier: union of the covered-neighbour lists (modelled as a
duplicate-free list; the Python `set` iteration order is unspecified, and
none of the proved properties depend on the enumeration order). -/
def frontierOf (b : Board) (st : Snapshot) : List Coord :=
  ((constraintCells b st).flatMap (fun c => c.2)).dedup

/-- Two distinct frontier cells are adjacent when some constraint's covered
list contains both (the `i < j` pair loop adds both directions). -/
def sharesConstraint (ccells : List (Coord × List Coord)) (a c : Coord) : Bool :=
  decide (a ≠ c) && ccells.any (fun k => decide (a ∈ k.2) && decide (c ∈ k.2))

def adjListOf (ccells : List (Coord × List Coord)) (frontier : List Coord)
    (x : Coord) : List Coord :=
  frontier.filter (fun y => sharesConstraint ccells x y)

/-- The inner traversal collecting one connected component (the Python uses
a LIFO stack; the visit order does not affect the computed set, and the fuel
always suffices, as proved below). -/
def compBFS (adjN : Coord → List Coord) :
    Nat → List Coord → List Coord → List Coord → List Coord × List Coord
  | 0, visited, comp, _ => (comp, visited)
  | _ + 1, visited, comp, [] => (comp, visited)
  | fuel + 1, visited, comp, x :: q =>
    let ys := (adjN x).filter (fun y => !decide (y ∈ visited))
    compBFS adjN fuel (ys ++ visited) (ys ++ comp) (ys ++ q)

/-- The outer loop over frontier cells producing the component list. -/
def componentsFold (adjN : Coord → List Coord) (fuel : Nat) :
    List Coord → List Coord → List (List Coord) → List (List Coord) × List Coord
  | [], visited, acc => (acc, visited)
  | v :: vs, visited, acc =>
    if decide (v ∈ visited) then componentsFold adjN fuel vs visited acc
    else
      let r := compBFS adjN fuel (v :: visited) [v] [v]
      componentsFold adjN fuel vs r.2 (acc ++ [r.1])

def componentsOf (b : Board) (st : Snapshot) : List (List Coord) :=
  (componentsFold (adjListOf (constraintCells b st) (frontierOf b st))
    ((frontierOf b st).length + 2) (frontierOf b st) [] []).1

/-- The per-component constraint build: a numbered cell contributes
`(covered neighbours inside comp, number - flaggedCount)` when it has
covered neighbours inside the component and none outside; a cell whose
covered neighbours straddle the component boundary is skipped. -/
def localConstraints (b : Board) (st : Snapshot) (comp : List Coord) : List LCon :=
  st.numbers.filterMap fun cn =>
    let cov := covOf b st cn.1
    let varsInComp := cov.filter (fun v => decide (v ∈ comp))
    if varsInComp.isEmpty then none
    else if (cov.filter (fun v => !decide (v ∈ comp))).isEmpty then
      some ⟨varsInComp, cn.2 - ((flgOf b st cn.1).length : Int)⟩
    else none

/-- Accumulator of the component loop: globally best guess and the certainty
cells. -/
structure CspAcc where
  bestCell : Option Coord
  bestProb : ℚ
  cflag : Option Coord
  csafe : Option Coord

def evalVar (models : List PAssign) (acc : CspAcc) (v : Coord) : CspAcc :=
  let p := mineProb models v
  let acc1 :=
    if p = 0 then { acc with csafe := some v }
    else if p = 1 then { acc with cflag := some v }
    else acc
  if p < acc1.bestProb then { acc1 with bestProb := p, bestCell := some v } else acc1

def evalComp (vars : List Coord) (models : List PAssign) (acc : CspAcc) : CspAcc :=
  vars.foldl (fun a v => evalVar models a v) acc

/-- The component loop of `Phase2Agent.choose_action`, with the early break
once a certainty is found. -/
def cspLoop (b : Board) (st : Snapshot) (cap : Nat) :
    List (List Coord) → CspAcc → CspAcc
  | [], acc => acc
  | comp :: rest, acc =>
    if cap < comp.length then cspLoop b st cap rest acc
    else
      let cons := localConstraints b st comp
      if cons.isEmpty then cspLoop b st cap rest acc
      else
        let models := dfsModels cons comp []
        if models.length = 0 then cspLoop b st cap rest acc
        else
          let acc2 := evalComp comp models acc
          if acc2.cflag.isSome || acc2.csafe.isSome then acc2
          else cspLoop b st cap rest acc2

/-- `Phase2Agent.choose_action`.  `agentRnd` models the agent's seeded
generator draw; `globalRnd` models the draw of the *process-global*
generator consumed by the two `random.choice` fallbacks, which is not
derived from the agent's seed. -/
def phase2Choose (b : Board) (cap : Nat) (agentRnd globalRnd : Nat) : Option Action :=
  match phase1ChooseL b agentRnd with
  | (none, _) => none
  | (some a, wasLogic) =>
    match a with
    | Action.flagAct _ => some a
    | Action.revealAct _ =>
      if wasLogic then some a
      else
        let st := b.stateForAgent
        if st.covered.isEmpty then none
        else if (frontierOf b st).isEmpty then
          some (Action.revealAct
            (st.covered.getD (globalRnd % st.covered.length) (0, 0)))
        else
          let acc := cspLoop b st cap (componentsOf b st)
            { bestCell := none, bestProb := 11 / 10, cflag := none, csafe := none }
          match acc.cflag with
          | some v => some (Action.flagAct v)
          | none =>
            match acc.csafe with
            | some v => some (Action.revealAct v)
            | none =>
              match acc.bestCell with
              | some v => some (Action.revealAct v)
              | none => some (Action.revealAct
                  (st.covered.getD (globalRnd % st.covered.length) (0, 0)))

/-! ### Reachability relations and concrete boards -/

/-- Number of revealed non-mine cells. -/
def Board.revealedNonMineCount (b : Board) : Nat :=
  b.cells.countP (fun p => !b.mineF p && b.revF p)

/-- Board states arising during agent play from a fresh board: any covered
in-bounds cell may be revealed (single-point safe reveals, CSP guesses and
random guesses are all of this form), while flags are placed only by the
certain-mine rule, as the claim stipulates. -/
inductive PlayReach (stream : Nat → Nat) (rows cols : Int) (mines : Nat) :
    Board → Prop
  | init : PlayReach stream rows cols mines (mkBoard stream rows cols mines)
  | step_reveal (c : Board) (p : Coord) :
      PlayReach stream rows cols mines c → c.inBounds p = true →
      PlayReach stream rows cols mines (c.reveal p).2
  | step_flag (c : Board) (p : Coord) :
      PlayReach stream rows cols mines c → c.gameOver = false →
      spMinePass c c.stateForAgent c.stateForAgent.numbers = some (Action.flagAct p) →
      PlayReach stream rows cols mines (c.flag p)

/-- The claim's connectivity for the flood fill: a chain of zero-adjacency,
unflagged cells (revealed or not), read off the spec sentence. -/
inductive ZeroPath (b : Board) (start : Coord) : Coord → Prop
  | refl : ZeroPath b start start
  | step (p q : Coord) : ZeroPath b start p → b.flagF p = false → b.adjF p = 0 →
      q ∈ b.neighbors p → ZeroPath b start q

/-- The connectivity actually realised by `_reveal_region`: intermediate
cells must also be unrevealed in the pre-call state, since the fill skips
already-revealed cells without re-expanding them. -/
inductive FillReach (b : Board) (start : Coord) : Coord → Prop
  | refl : FillReach b start start
  | step (p q : Coord) : FillReach b start p → b.flagF p = false →
      b.revF p = false → b.adjF p = 0 → q ∈ b.neighbors p → FillReach b start q

/-- Concrete 1×5 board with its mine at `(0,4)`: the stream constantly
drawing 4 makes the shuffle pick cell `(0,4)` first. -/
def demo15 : Board := mkBoard (fun _ => 4) 1 5 1

/-- The 1×5 board after `flag (0,0); flag (0,2); reveal (0,1); unflag (0,0);
unflag (0,2)`: cell `(0,1)` is revealed with adjacency 0 while its
neighbours `(0,0)` and `(0,2)` are covered and unflagged. -/
def demo15pre : Board :=
  ((((demo15.flag (0, 0)).flag (0, 2)).reveal (0, 1)).2.unflag (0, 0)).unflag (0, 2)

/-- Concrete 1×2 board with its mine at `(0,1)`. -/
def demo12 : Board := mkBoard (fun _ => 1) 1 2 1

/-- Concrete 2×2 board with one mine, nothing revealed. -/
def demo22 : Board := mkBoard (fun _ => 0) 2 2 1

/-- Concrete 1×5 board with its mine at `(0,2)`: after revealing `(0,0)`
the game continues and the certain-mine rule fires on `(0,2)`. -/
def demoSP : Board := mkBoard (fun _ => 2) 1 5 1

/-- All board states reachable from `b` through the public mutators. -/
inductive OpReach (b : Board) : Board → Prop
  | refl : OpReach b b
  | flag (c : Board) (p : Coord) : OpReach b c → OpReach b (c.flag p)
  | unflag (c : Board) (p : Coord) : OpReach b c → OpReach b (c.unflag p)
  | reveal (c : Board) (p : Coord) : OpReach b c → OpReach b (c.reveal p).2

/-! ### Preservation of the immutable fields -/

theorem revealRegion_rows (fuel : Nat) (b : Board) (q : List Coord) :
    (revealRegion fuel b q).rows = b.rows ∧ (revealRegion fuel b q).cols = b.cols ∧
    (revealRegion fuel b q).minesCount = b.minesCount ∧
    (revealRegion fuel b q).mineF = b.mineF ∧ (revealRegion fuel b q).adjF = b.adjF ∧
    (revealRegion fuel b q).flagF = b.flagF ∧
    (revealRegion fuel b q).gameOver = b.gameOver ∧
    (revealRegion fuel b q).winCached = b.winCached := by
  induction fuel generalizing b q with
  | zero => simp [revealRegion]
  | succ n ih =>
    match q with
    | [] => simp [revealRegion]
    | p :: q =>
      simp only [revealRegion]
      split
      · exact ih b q
      · split
        · exact ih _ _
        · exact ih _ _

theorem checkWin_rows (b : Board) :
    (b.checkWin).rows = b.rows ∧ (b.checkWin).cols = b.cols ∧
    (b.checkWin).minesCount = b.minesCount ∧
    (b.checkWin).mineF = b.mineF ∧ (b.checkWin).adjF = b.adjF ∧
    (b.checkWin).revF = b.revF ∧ (b.checkWin).flagF = b.flagF := by
  unfold Board.checkWin
  split
  · simp
  · split <;> simp

theorem reveal_core (c : Board) (p : Coord) :
    (c.reveal p).2.rows = c.rows ∧ (c.reveal p).2.cols = c.cols ∧
    (c.reveal p).2.minesCount = c.minesCount ∧
    (c.reveal p).2.mineF = c.mineF ∧ (c.reveal p).2.adjF = c.adjF ∧
    (c.reveal p).2.flagF = c.flagF := by
  unfold Board.reveal
  split
  · exact ⟨rfl, rfl, rfl, rfl, rfl, rfl⟩
  split
  · exact ⟨rfl, rfl, rfl, rfl, rfl, rfl⟩
  split
  · exact ⟨rfl, rfl, rfl, rfl, rfl, rfl⟩
  obtain ⟨e1, e2, e3, e4, e5, e6, _, _⟩ := revealRegion_rows (fillFuel c) c [p]
  obtain ⟨f1, f2, f3, f4, f5, _, f7⟩ := checkWin_rows (revealRegion (fillFuel c) c [p])
  exact ⟨f1.trans e1, f2.trans e2, f3.trans e3, f4.trans e4, f5.trans e5, f7.trans e6⟩

theorem opReach_core (b c : Board) (h : OpReach b c) :
    c.rows = b.rows ∧ c.cols = b.cols ∧ c.minesCount = b.minesCount ∧
    c.mineF = b.mineF ∧ c.adjF = b.adjF := by
  induction h with
  | refl => exact ⟨rfl, rfl, rfl, rfl, rfl⟩
  | flag c p _ ih =>
    unfold Board.flag
    split
    · exact ih
    · simpa [setFlag] using ih
  | unflag c p _ ih =>
    unfold Board.unflag
    split
    · exact ih
    · simpa [setFlag] using ih
  | reveal c p _ ih =>
    obtain ⟨g1, g2, g3, g4, g5, _⟩ := reveal_core c p
    exact ⟨g1.trans ih.1, g2.trans ih.2.1, g3.trans ih.2.2.1,
      g4.trans ih.2.2.2.1, g5.trans ih.2.2.2.2⟩

/-! ### The shuffled cell list is a permutation; mine counting -/

theorem getD_cons_eraseIdx_perm (l : List Coord) (k : Nat) (h : k < l.length) :
    (l.getD k (0, 0) :: l.eraseIdx k).Perm l := by
  induction l generalizing k with
  | nil => simp at h
  | cons a t ih =>
    match k with
    | 0 => simp [List.getD]
    | k + 1 =>
      have hk : k < t.length := by simpa using h
      simp only [List.getD_cons_succ, List.eraseIdx_cons_succ]
      exact (List.Perm.swap a (t.getD k (0, 0)) (t.eraseIdx k)).trans
        (List.Perm.cons a (ih k hk))

theorem pyShuffle_perm (stream : Nat → Nat) (n : Nat) (l : List Coord)
    (h : l.length = n) : (pyShuffle stream n l).Perm l := by
  induction n generalizing l with
  | zero => simp [pyShuffle]
  | succ m ih =>
    simp only [pyShuffle]
    have hlen : 0 < l.length := by omega
    have hk : stream m % l.length < l.length := Nat.mod_lt _ hlen
    have herase : (l.eraseIdx (stream m % l.length)).length = m := by
      rw [List.length_eraseIdx]
      simp [hk]; omega
    exact (List.Perm.cons _ (ih _ herase)).trans (getD_cons_eraseIdx_perm l _ hk)

theorem cellsOf_nodup (rows cols : Int) : (cellsOf rows cols).Nodup := by
  unfold cellsOf
  refine List.Nodup.product ?_ ?_ <;>
    exact List.Nodup.map (fun a b h => Int.ofNat.inj h) (List.nodup_range _)

theorem cellsOf_length (rows cols : Int) :
    (cellsOf rows cols).length = rows.toNat * cols.toNat := by
  unfold cellsOf
  rw [List.length_product, List.length_map, List.length_map,
    List.length_range, List.length_range]

theorem mem_cellsOf (rows cols : Int) (p : Coord) :
    p ∈ cellsOf rows cols ↔ 0 ≤ p.1 ∧ p.1 < rows ∧ 0 ≤ p.2 ∧ p.2 < cols := by
  unfold cellsOf
  rw [List.mem_product]
  simp only [List.mem_map, List.mem_range, Int.ofNat_eq_natCast]
  constructor
  · rintro ⟨⟨r, hr, hre⟩, ⟨c, hc, hce⟩⟩
    omega
  · rintro ⟨h1, h2, h3, h4⟩
    exact ⟨⟨p.1.toNat, by omega, by omega⟩, ⟨p.2.toNat, by omega, by omega⟩⟩

/-- The cell list holding the mines of a freshly constructed board. -/
def mineList (stream : Nat → Nat) (rows cols : Int) (mines : Nat) : List Coord :=
  (pyShuffle stream (cellsOf rows cols).length (cellsOf rows cols)).take mines

theorem mkBoard_mineF (stream : Nat → Nat) (rows cols : Int) (mines : Nat) :
    (mkBoard stream rows cols mines).mineF =
      fun p => decide (p ∈ mineList stream rows cols mines) := rfl

theorem mkBoard_fields (stream : Nat → Nat) (rows cols : Int) (mines : Nat) :
    (mkBoard stream rows cols mines).rows = rows ∧
    (mkBoard stream rows cols mines).cols = cols ∧
    (mkBoard stream rows cols mines).minesCount = mines ∧
    (mkBoard stream rows cols mines).revF = (fun _ => false) ∧
    (mkBoard stream rows cols mines).flagF = (fun _ => false) ∧
    (mkBoard stream rows cols mines).gameOver = false ∧
    (mkBoard stream rows cols mines).winCached = none :=
  ⟨rfl, rfl, rfl, rfl, rfl, rfl, rfl⟩

/-- Counting the members of a duplicate-free sublist inside a duplicate-free
list yields the sublist's length. -/
theorem countP_mem_eq_length {T L : List Coord} (hT : T.Nodup) (hL : L.Nodup)
    (hsub : ∀ a ∈ T, a ∈ L) :
    L.countP (fun p => decide (p ∈ T)) = T.length := by
  rw [List.countP_eq_length_filter]
  refine List.Perm.length_eq ?_
  rw [List.perm_ext_iff_of_nodup (hL.filter _) hT]
  intro a
  simp only [List.mem_filter, decide_eq_true_eq]
  exact ⟨fun h => h.2, fun h => ⟨hsub a h, h⟩⟩

theorem mineList_count (stream : Nat → Nat) (rows cols : Int) (mines : Nat)
    (hm : mines ≤ rows.toNat * cols.toNat) :
    (cellsOf rows cols).countP
      (fun p => decide (p ∈ mineList stream rows cols mines)) = mines ∧
    (mineList stream rows cols mines).Nodup ∧
    ∀ p ∈ mineList stream rows cols mines, p ∈ cellsOf rows cols := by
  unfold mineList
  have hperm : (pyShuffle stream (cellsOf rows cols).length (cellsOf rows cols)).Perm
      (cellsOf rows cols) := pyShuffle_perm _ _ _ rfl
  have hnd : (pyShuffle stream (cellsOf rows cols).length (cellsOf rows cols)).Nodup :=
    hperm.nodup_iff.mpr (cellsOf_nodup rows cols)
  have hndT : ((pyShuffle stream (cellsOf rows cols).length
      (cellsOf rows cols)).take mines).Nodup :=
    (List.take_sublist _ _).nodup hnd
  have hsubT : ∀ a ∈ (pyShuffle stream (cellsOf rows cols).length
      (cellsOf rows cols)).take mines, a ∈ cellsOf rows cols :=
    fun a ha => hperm.mem_iff.mp (List.mem_of_mem_take ha)
  have hlenT : ((pyShuffle stream (cellsOf rows cols).length
      (cellsOf rows cols)).take mines).length = mines := by
    rw [List.length_take, hperm.length_eq, cellsOf_length]
    omega
  exact ⟨(countP_mem_eq_length hndT (cellsOf_nodup rows cols) hsubT).trans hlenT,
    hndT, hsubT⟩

/-! ### Terminal freezing and the reveal case analysis -/

theorem terminal_frozen (b : Board) (p : Coord) (hb : b.gameOver = true) :
    b.flag p = b ∧ b.unflag p = b ∧ b.reveal p = (true, b) := by
  unfold Board.flag Board.unflag Board.reveal
  simp [hb]

theorem reveal_cases (b : Board) (p : Coord) :
    (b.gameOver = true ∨ b.flagF p = true → b.reveal p = (true, b)) ∧
    (b.gameOver = false → b.flagF p = false → b.revF p = true →
      b.reveal p = (true, b)) ∧
    (b.gameOver = false → b.flagF p = false → b.revF p = false → b.mineF p = true →
      b.reveal p =
        (false, { setRev b p with gameOver := true, winCached := some false })) ∧
    (b.gameOver = false → b.flagF p = false → b.revF p = false → b.mineF p = false →
      b.reveal p = (true, (revealRegion (fillFuel b) b [p]).checkWin)) := by
  unfold Board.reveal
  refine ⟨?_, ?_, ?_, ?_⟩
  · rintro (h | h) <;> simp [h]
  · intro h1 h2 h3
    simp [h1, h2, h3]
  · intro h1 h2 h3 h4
    simp [h1, h2, h3, h4]
  · intro h1 h2 h3 h4
    simp [h1, h2, h3, h4]

/-- C4: `reveal` returns alive=false iff it reveals a mine: terminal,
flagged or already-revealed calls are alive no-ops; an unflagged unrevealed
mine on an in-progress board becomes revealed, the board transitions to
Lost, alive=false is returned, and every subsequent mutator call is a
no-op; in every other case alive=true. -/
theorem reveal_alive_semantics (b : Board) (p : Coord) :
    ((b.gameOver = true ∨ b.flagF p = true ∨ b.revF p = true) →
      b.reveal p = (true, b)) ∧
    ((b.gameOver = false ∧ b.flagF p = false ∧ b.revF p = false ∧
        b.mineF p = true) →
      (b.reveal p).1 = false ∧ (b.reveal p).2.revF p = true ∧
      (b.reveal p).2.gameOver = true ∧ (b.reveal p).2.status = GStatus.lost ∧
      ∀ q, (b.reveal p).2.flag q = (b.reveal p).2 ∧
        (b.reveal p).2.unflag q = (b.reveal p).2 ∧
        (b.reveal p).2.reveal q = (true, (b.reveal p).2)) ∧
    ((b.reveal p).1 = false ↔
      b.gameOver = false ∧ b.flagF p = false ∧ b.revF p = false ∧
        b.mineF p = true) := by
  obtain ⟨c1, c2, c3, c4⟩ := reveal_cases b p
  refine ⟨?_, ?_, ?_⟩
  · rintro (h | h | h)
    · exact c1 (Or.inl h)
    · exact c1 (Or.inr h)
    · rcases hg : b.gameOver with _ | _
      · rcases hf : b.flagF p with _ | _
        · exact c2 hg hf h
        · exact c1 (Or.inr hf)
      · exact c1 (Or.inl hg)
  · rintro ⟨h1, h2, h3, h4⟩
    rw [c3 h1 h2 h3 h4]
    refine ⟨rfl, by simp [setRev], rfl, by simp [Board.status], fun q => ?_⟩
    exact terminal_frozen _ q rfl
  · constructor
    · intro h
      rcases hg : b.gameOver with _ | _
      · rcases hf : b.flagF p with _ | _
        · rcases hr : b.revF p with _ | _
          · rcases hm : b.mineF p with _ | _
            · rw [c4 hg hf hr hm] at h
              simp at h
            · exact ⟨rfl, rfl, rfl, rfl⟩
          · rw [c2 hg hf hr] at h
            simp at h
        · rw [c1 (Or.inr hf)] at h
          simp at h
      · rw [c1 (Or.inl hg)] at h
        simp at h
    · rintro ⟨h1, h2, h3, h4⟩
      rw [c3 h1 h2 h3 h4]

/-- Witness for C4 on the concrete 1×2 board: revealing the mine at `(0,1)`
returns alive=false and a Lost board. -/
theorem reveal_alive_semantics_witness :
    (demo12.reveal (0, 1)).1 = false ∧
    (demo12.reveal (0, 1)).2.status = GStatus.lost :=
  ⟨((reveal_alive_semantics demo12 (0, 1)).2.1 ⟨rfl, rfl, rfl, by decide⟩).1,
   ((reveal_alive_semantics demo12 (0, 1)).2.1 ⟨rfl, rfl, rfl, by decide⟩).2.2.2.1⟩

/-- C6: once terminal, no mutator changes the state (hence no observable
query changes); `flag`/`unflag` never change the status, and a status
change through `reveal` can only start from InProgress, so
InProgress→Lost and InProgress→Won are the only transitions and both are
final. -/
theorem terminal_no_mutation (b : Board) (p : Coord) :
    (b.gameOver = true →
      b.flag p = b ∧ b.unflag p = b ∧ b.reveal p = (true, b)) ∧
    (b.flag p).status = b.status ∧ (b.unflag p).status = b.status ∧
    (b.status ≠ GStatus.inProgress →
      (b.reveal p).2 = b ∧ b.flag p = b ∧ b.unflag p = b) ∧
    ((b.reveal p).2.status ≠ b.status → b.status = GStatus.inProgress) := by
  have hgo : b.status ≠ GStatus.inProgress → b.gameOver = true := by
    intro h
    rcases hg : b.gameOver with _ | _
    · exact absurd (by simp [Board.status, hg]) h
    · rfl
  refine ⟨fun h => terminal_frozen b p h, ?_, ?_, ?_, ?_⟩
  · unfold Board.flag
    split
    · rfl
    · rfl
  · unfold Board.unflag
    split
    · rfl
    · rfl
  · intro h
    obtain ⟨f1, f2, f3⟩ := terminal_frozen b p (hgo h)
    exact ⟨by rw [f3], f1, f2⟩
  · intro h
    by_cases hs : b.status = GStatus.inProgress
    · exact hs
    · obtain ⟨f1, f2, f3⟩ := terminal_frozen b p (hgo hs)
      rw [f3] at h
      exact absurd rfl h

/-- Witness for C6 on a concrete Lost board. -/
theorem terminal_no_mutation_witness :
    (demo12.reveal (0, 1)).2.flag (0, 0) = (demo12.reveal (0, 1)).2 ∧
    (demo12.reveal (0, 1)).2.unflag (0, 0) = (demo12.reveal (0, 1)).2 ∧
    (demo12.reveal (0, 1)).2.reveal (0, 0) =
      (true, (demo12.reveal (0, 1)).2) :=
  (terminal_no_mutation (demo12.reveal (0, 1)).2 (0, 0)).1 (by decide)

/-- C8: a valid construction has exactly `mineCount` mines among its
(duplicate-free) cells, and no reachable mutation changes the mine grid. -/
theorem mine_count_invariant (stream : Nat → Nat) (rows cols : Int) (mines : Nat)
    (h1 : 1 ≤ mines) (h2 : (mines : Int) < rows * cols)
    (hr : 0 ≤ rows) (hc : 0 ≤ cols) :
    (mkBoard stream rows cols mines).cells.countP
      (mkBoard stream rows cols mines).mineF = mines ∧
    (mkBoard stream rows cols mines).cells.Nodup ∧
    ∀ b2, OpReach (mkBoard stream rows cols mines) b2 →
      b2.mineF = (mkBoard stream rows cols mines).mineF := by
  have hcast : ((rows.toNat * cols.toNat : Nat) : Int) = rows * cols := by
    push_cast
    rw [Int.toNat_of_nonneg hr, Int.toNat_of_nonneg hc]
  have hm : mines ≤ rows.toNat * cols.toNat := by omega
  refine ⟨?_, cellsOf_nodup rows cols, fun b2 h => (opReach_core _ _ h).2.2.2.1⟩
  show (cellsOf rows cols).countP (mkBoard stream rows cols mines).mineF = mines
  rw [mkBoard_mineF]
  exact (mineList_count stream rows cols mines hm).1

/-- Witness for C8 on the concrete 2×2 board with one mine. -/
theorem mine_count_invariant_witness :
    demo22.cells.countP demo22.mineF = 1 ∧ demo22.cells.Nodup :=
  ⟨(mine_count_invariant (fun _ => 0) 2 2 1 (by decide) (by decide)
      (by decide) (by decide)).1,
   (mine_count_invariant (fun _ => 0) 2 2 1 (by decide) (by decide)
      (by decide) (by decide)).2.1⟩

/-! ### Flood-fill lemmas -/

theorem mem_neighbors_mem_cells (b : Board) (x nb : Coord)
    (h : nb ∈ b.neighbors x) : nb ∈ b.cells := by
  unfold Board.neighbors nbrsIn at h
  rw [List.mem_filter] at h
  obtain ⟨-, h2⟩ := h
  unfold inB at h2
  simp only [Bool.and_eq_true, decide_eq_true_eq] at h2
  show nb ∈ cellsOf b.rows b.cols
  rw [mem_cellsOf]
  exact ⟨h2.1.1.1, h2.1.1.2, h2.1.2, h2.2⟩

theorem neighbors_length_le (b : Board) (x : Coord) : (b.neighbors x).length ≤ 8 := by
  unfold Board.neighbors nbrsIn
  have h1 := List.length_filter_le (fun q => inB b.rows b.cols q)
    (deltas.map (fun d => (x.1 + d.1, x.2 + d.2)))
  have h2 : (deltas.map (fun d => (x.1 + d.1, x.2 + d.2))).length = 8 := by
    rw [List.length_map]
    rfl
  omega

theorem countP_setRev_lt (L : List Coord) (rev : Coord → Bool) (p : Coord)
    (hp : p ∈ L) (hrev : rev p = false) :
    L.countP (fun x => !(if x = p then true else rev x)) + 1 ≤
      L.countP (fun x => !rev x) := by
  have hmono : ∀ t : List Coord,
      t.countP (fun x => !(if x = p then true else rev x)) ≤
        t.countP (fun x => !rev x) := by
    intro t
    apply List.countP_mono_left
    intro x _ hpred
    by_cases hxp : x = p
    · subst hxp
      simp at hpred
    · simpa [hxp] using hpred
  induction L with
  | nil => simp at hp
  | cons a t ih =>
    rw [List.countP_cons, List.countP_cons]
    by_cases hap : a = p
    · have h1 : (!(if a = p then true else rev a)) = false := by simp [hap]
      have h2 : (!rev a) = true := by
        rw [hap, hrev]
        rfl
      rw [h1, h2, if_pos rfl, if_neg (by decide : ¬(false = true))]
      have := hmono t
      omega
    · have h1 : (!(if a = p then true else rev a)) = !rev a := by simp [hap]
      rw [h1]
      rcases List.mem_cons.mp hp with h | h
      · exact absurd h.symm hap
      · have := ih h
        rcases hra : rev a with _ | _
        · rw [if_pos (by decide : (!false) = true)]
          omega
        · rw [if_neg (by decide : ¬((!true) = true))]
          omega

theorem revealRegion_mono (fuel : Nat) : ∀ (b : Board) (q : List Coord) (z : Coord),
    b.revF z = true → (revealRegion fuel b q).revF z = true := by
  induction fuel with
  | zero => intro b q z h; exact h
  | succ n ih =>
    intro b q z h
    match q with
    | [] => exact h
    | p :: q =>
      simp only [revealRegion]
      split
      · exact ih b q z h
      · split
        · exact ih _ _ z (by simp [setRev, h])
        · exact ih _ _ z (by simp [setRev, h])

theorem revealRegion_queue_rev (fuel : Nat) : ∀ (b : Board) (q : List Coord),
    fillPhi b q ≤ fuel → (∀ x ∈ q, x ∈ b.cells) →
    ∀ z ∈ q, b.flagF z = false → (revealRegion fuel b q).revF z = true := by
  induction fuel with
  | zero =>
    intro b q hfuel _ z hz _
    unfold fillPhi at hfuel
    have h0 : q.length = 0 := by omega
    rw [List.length_eq_zero] at h0
    subst h0
    simp at hz
  | succ n ih =>
    intro b q hfuel hq z hz hzf
    match q with
    | [] => simp at hz
    | p :: q =>
      have hqsub : ∀ x ∈ q, x ∈ b.cells := fun x hx => hq x (List.mem_cons_of_mem _ hx)
      simp only [revealRegion]
      split
      · rename_i hcond
        rcases List.mem_cons.mp hz with hzp | hzq
        · subst hzp
          rcases (Bool.or_eq_true _ _).mp hcond with hr | hf
          · exact revealRegion_mono _ _ _ _ hr
          · rw [hzf] at hf
            exact absurd hf (by simp)
        · refine ih b q ?_ hqsub z hzq hzf
          unfold fillPhi at hfuel ⊢
          simp only [List.length_cons] at hfuel
          omega
      · rename_i hcond
        simp only [Bool.or_eq_true, not_or, Bool.not_eq_true] at hcond
        obtain ⟨hpr, hpf⟩ := hcond
        have hpc : p ∈ b.cells := hq p (List.mem_cons_self _ _)
        have hcnt := countP_setRev_lt b.cells b.revF p hpc hpr
        have hzrev : ∀ q2 : List Coord, z = p →
            (revealRegion n (setRev b p) q2).revF z = true := by
          intro q2 hzp
          exact revealRegion_mono _ _ _ _ (by simp [setRev, hzp])
        split
        · -- zero-adjacency: neighbours enqueued
          rcases List.mem_cons.mp hz with hzp | hzq
          · exact hzrev _ hzp
          · refine ih (setRev b p) _ ?_ ?_ z (List.mem_append_left _ hzq) hzf
            · unfold fillPhi at hfuel ⊢
              rw [List.length_append]
              have hnb := neighbors_length_le b p
              have hfl := List.length_filter_le
                (fun nb => !(setRev b p).revF nb && !(setRev b p).flagF nb)
                (b.neighbors p)
              simp only [List.length_cons] at hfuel
              show 9 * b.cells.countP (fun x => !(if x = p then true else b.revF x)) +
                _ ≤ n
              omega
            · intro x hx
              rcases List.mem_append.mp hx with h | h
              · exact hqsub x h
              · exact mem_neighbors_mem_cells b p x (List.mem_of_mem_filter h)
        · rcases List.mem_cons.mp hz with hzp | hzq
          · exact hzrev _ hzp
          · refine ih (setRev b p) q ?_ hqsub z hzq hzf
            unfold fillPhi at hfuel ⊢
            simp only [List.length_cons] at hfuel
            show 9 * b.cells.countP (fun x => !(if x = p then true else b.revF x)) +
              _ ≤ n
            omega

theorem revealRegion_expand (fuel : Nat) : ∀ (b : Board) (q : List Coord),
    fillPhi b q ≤ fuel → (∀ x ∈ q, x ∈ b.cells) →
    ∀ z, b.revF z = false → b.flagF z = false → b.adjF z = 0 →
      (revealRegion fuel b q).revF z = true →
      ∀ nb ∈ b.neighbors z, b.flagF nb = false →
        (revealRegion fuel b q).revF nb = true := by
  induction fuel with
  | zero =>
    intro b q _ _ z hzr _ _ hzrev nb _ _
    rw [show revealRegion 0 b q = b from rfl] at hzrev
    rw [hzr] at hzrev
    exact absurd hzrev (by simp)
  | succ n ih =>
    intro b q hfuel hq z hzr hzf hza hzrev nb hnb hnbf
    match q with
    | [] =>
      rw [show revealRegion (n + 1) b [] = b from rfl] at hzrev ⊢
      rw [hzr] at hzrev
      exact absurd hzrev (by simp)
    | p :: q =>
      have hqsub : ∀ x ∈ q, x ∈ b.cells := fun x hx => hq x (List.mem_cons_of_mem _ hx)
      have hpc : p ∈ b.cells := hq p (List.mem_cons_self _ _)
      simp only [revealRegion] at hzrev ⊢
      split at hzrev
      · rename_i hcond
        have hfuel2 : fillPhi b q ≤ n := by
          unfold fillPhi at hfuel ⊢
          simp only [List.length_cons] at hfuel
          omega
        split
        · exact ih b q hfuel2 hqsub z hzr hzf hza hzrev nb hnb hnbf
        · rename_i hcond2
          exact absurd hcond hcond2
      · rename_i hcond
        split
        · rename_i hcond2
          exact absurd hcond2 hcond
        simp only [Bool.or_eq_true, not_or, Bool.not_eq_true] at hcond
        obtain ⟨hpr, hpf⟩ := hcond
        have hcnt := countP_setRev_lt b.cells b.revF p hpc hpr
        by_cases hzp : z = p
        · -- the popped cell is z itself: its neighbours are enqueued
          subst hzp
          rw [if_pos hza] at hzrev ⊢
          have hfuel2 : fillPhi (setRev b z)
              (q ++ (b.neighbors z).filter
                (fun x => !(setRev b z).revF x && !(setRev b z).flagF x)) ≤ n := by
            unfold fillPhi at hfuel ⊢
            rw [List.length_append]
            have hn8 := neighbors_length_le b z
            have hfl := List.length_filter_le
              (fun x => !(setRev b z).revF x && !(setRev b z).flagF x) (b.neighbors z)
            simp only [List.length_cons] at hfuel
            show 9 * b.cells.countP (fun x => !(if x = z then true else b.revF x)) +
              _ ≤ n
            omega
          have hq2 : ∀ x ∈ q ++ (b.neighbors z).filter
              (fun x => !(setRev b z).revF x && !(setRev b z).flagF x),
              x ∈ (setRev b z).cells := by
            intro x hx
            rcases List.mem_append.mp hx with h | h
            · exact hqsub x h
            · exact mem_neighbors_mem_cells b z x (List.mem_of_mem_filter h)
          rcases hnbrev : (setRev b z).revF nb with _ | _
          · -- nb freshly enqueued
            refine revealRegion_queue_rev n (setRev b z) _ hfuel2 hq2 nb ?_ hnbf
            refine List.mem_append_right _ ?_
            rw [List.mem_filter]
            refine ⟨hnb, ?_⟩
            rw [hnbrev]
            show (!false && !b.flagF nb) = true
            rw [hnbf]
            rfl
          · exact revealRegion_mono _ _ _ _ hnbrev
        · -- a different cell was popped
          have hzr2 : (setRev b p).revF z = false := by
            simp only [setRev]
            rw [if_neg hzp]
            exact hzr
          split at hzrev
          · rename_i hpa
            rw [if_pos hpa]
            have hfuel2 : fillPhi (setRev b p)
                (q ++ (b.neighbors p).filter
                  (fun x => !(setRev b p).revF x && !(setRev b p).flagF x)) ≤ n := by
              unfold fillPhi at hfuel ⊢
              rw [List.length_append]
              have hn8 := neighbors_length_le b p
              have hfl := List.length_filter_le
                (fun x => !(setRev b p).revF x && !(setRev b p).flagF x) (b.neighbors p)
              simp only [List.length_cons] at hfuel
              show 9 * b.cells.countP (fun x => !(if x = p then true else b.revF x)) +
                _ ≤ n
              omega
            have hq2 : ∀ x ∈ q ++ (b.neighbors p).filter
                (fun x => !(setRev b p).revF x && !(setRev b p).flagF x),
                x ∈ (setRev b p).cells := by
              intro x hx
              rcases List.mem_append.mp hx with h | h
              · exact hqsub x h
              · exact mem_neighbors_mem_cells b p x (List.mem_of_mem_filter h)
            exact ih (setRev b p) _ hfuel2 hq2 z hzr2 hzf hza hzrev nb hnb hnbf
          · rename_i hpa
            rw [if_neg hpa]
            have hfuel2 : fillPhi (setRev b p) q ≤ n := by
              unfold fillPhi at hfuel ⊢
              simp only [List.length_cons] at hfuel
              show 9 * b.cells.countP (fun x => !(if x = p then true else b.revF x)) +
                _ ≤ n
              omega
            exact ih (setRev b p) q hfuel2 hqsub z hzr2 hzf hza hzrev nb hnb hnbf

theorem revealRegion_no_mine (fuel : Nat) : ∀ (b : Board) (q : List Coord),
    (∀ x ∈ q, b.mineF x = false) →
    (∀ x ∈ b.cells, b.adjF x = 0 → ∀ nb ∈ b.neighbors x, b.mineF nb = false) →
    (∀ x ∈ q, x ∈ b.cells) →
    ∀ z, b.mineF z = true → (revealRegion fuel b q).revF z = true →
      b.revF z = true := by
  induction fuel with
  | zero => intro b q _ _ _ z _ h; exact h
  | succ n ih =>
    intro b q hqm hadj hq z hzm hzrev
    match q with
    | [] => exact hzrev
    | p :: q =>
      have hqsub : ∀ x ∈ q, x ∈ b.cells := fun x hx => hq x (List.mem_cons_of_mem _ hx)
      have hqm2 : ∀ x ∈ q, b.mineF x = false := fun x hx => hqm x (List.mem_cons_of_mem _ hx)
      have hpc : p ∈ b.cells := hq p (List.mem_cons_self _ _)
      have hpm : b.mineF p = false := hqm p (List.mem_cons_self _ _)
      have hzp : z ≠ p := fun h => by rw [h, hpm] at hzm; exact absurd hzm (by simp)
      simp only [revealRegion] at hzrev
      split at hzrev
      · exact ih b q hqm2 hadj hqsub z hzm hzrev
      · have hback : (setRev b p).revF z = true → b.revF z = true := by
          simp only [setRev]
          rw [if_neg hzp]
          exact id
        split at hzrev
        · rename_i hpa
          refine hback (ih (setRev b p) _ ?_ hadj ?_ z hzm hzrev)
          · intro x hx
            rcases List.mem_append.mp hx with h | h
            · exact hqm2 x h
            · exact hadj p hpc hpa x (List.mem_of_mem_filter h)
          · intro x hx
            rcases List.mem_append.mp hx with h | h
            · exact hqsub x h
            · exact mem_neighbors_mem_cells b p x (List.mem_of_mem_filter h)
        · exact hback (ih (setRev b p) q hqm2 hadj hqsub z hzm hzrev)

theorem fillPhi_start_le (b : Board) (start : Coord) :
    fillPhi b [start] ≤ fillFuel b := by
  unfold fillPhi fillFuel
  have := List.countP_le_length (fun p => !b.revF p) (l := b.cells)
  simp only [List.length_cons, List.length_nil]
  omega

theorem fill_reach_revealed (b : Board) (start : Coord) (hs : start ∈ b.cells) :
    ∀ z, FillReach b start z → b.flagF z = false →
      (revealRegion (fillFuel b) b [start]).revF z = true := by
  intro z hz
  induction hz with
  | refl =>
    intro hf
    exact revealRegion_queue_rev _ b [start] (fillPhi_start_le b start)
      (by simpa using hs) start (by simp) hf
  | step p nb hpath hpf hpr hpa hnb ih =>
    intro hnbf
    exact revealRegion_expand (fillFuel b) b [start] (fillPhi_start_le b start)
      (by simpa using hs) p hpr hpf hpa (ih hpf) nb hnb hnbf

/-- C3 (amended): when `reveal` is called on an unflagged, unrevealed,
non-mine cell of an in-progress board, every unflagged cell connected to it
through unflagged, *previously unrevealed* zero-adjacency cells (including
the numbered border reached that way) is revealed afterwards, and the flood
fill never reveals a mine. -/
theorem reveal_flood_fill (b : Board) (start : Coord)
    (hg : b.gameOver = false) (hf : b.flagF start = false)
    (hrv : b.revF start = false) (hm : b.mineF start = false)
    (hs : start ∈ b.cells)
    (hadj : ∀ x ∈ b.cells, b.adjF x = 0 →
      ∀ nb ∈ b.neighbors x, b.mineF nb = false) :
    (∀ z, FillReach b start z → b.flagF z = false →
      (b.reveal start).2.revF z = true) ∧
    (∀ z, b.mineF z = true → (b.reveal start).2.revF z = true →
      b.revF z = true) := by
  obtain ⟨-, -, -, c4⟩ := reveal_cases b start
  rw [c4 hg hf hrv hm]
  have hrev : ((revealRegion (fillFuel b) b [start]).checkWin).revF =
      (revealRegion (fillFuel b) b [start]).revF :=
    (checkWin_rows _).2.2.2.2.2.1
  constructor
  · intro z hz hzf
    show ((revealRegion (fillFuel b) b [start]).checkWin).revF z = true
    rw [hrev]
    exact fill_reach_revealed b start hs z hz hzf
  · intro z hzm
    show ((revealRegion (fillFuel b) b [start]).checkWin).revF z = true → _
    rw [hrev]
    intro h
    exact revealRegion_no_mine (fillFuel b) b [start] (by simpa using hm) hadj
      (by simpa using hs) z hzm h

/-- Counterexample to C3 as stated: on the 1×5 board with its mine at
`(0,4)`, after flagging `(0,0)` and `(0,2)`, revealing `(0,1)`, then
unflagging both, the board is in progress and `(0,2)` is a zero-adjacency
unflagged cell transitively connected to the zero-adjacency non-mine cell
`(0,0)` through unflagged zero cells, yet `reveal (0,0)` leaves `(0,2)`
covered: the fill skips the already-revealed `(0,1)` without re-expanding
it. -/
theorem flood_fill_blocked :
    demo15pre.gameOver = false ∧ demo15pre.mineF (0, 0) = false ∧
    demo15pre.adjF (0, 0) = 0 ∧ demo15pre.revF (0, 0) = false ∧
    demo15pre.flagF (0, 0) = false ∧
    ZeroPath demo15pre (0, 0) (0, 2) ∧
    demo15pre.adjF (0, 2) = 0 ∧ demo15pre.flagF (0, 2) = false ∧
    demo15pre.mineF (0, 2) = false ∧ demo15pre.revF (0, 2) = false ∧
    (demo15pre.reveal (0, 0)).2.revF (0, 2) = false := by
  refine ⟨by decide, by decide, by decide, by decide, by decide, ?_,
    by decide, by decide, by decide, by decide, by decide⟩
  have h1 : ZeroPath demo15pre (0, 0) (0, 1) :=
    ZeroPath.step (0, 0) (0, 1) ZeroPath.refl (by decide) (by decide) (by decide)
  exact ZeroPath.step (0, 1) (0, 2) h1 (by decide) (by decide) (by decide)

/-- Witness for the amended C3 on the fresh 1×5 board: revealing `(0,0)`
reveals the whole zero region and its numbered border `(0,3)`, and not the
mine `(0,4)`. -/
theorem reveal_flood_fill_witness :
    (demo15.reveal (0, 0)).2.revF (0, 3) = true ∧
    (demo15.reveal (0, 0)).2.revF (0, 4) = false := by
  constructor
  · have r1 : FillReach demo15 (0, 0) (0, 1) :=
      FillReach.step (0, 0) (0, 1) FillReach.refl (by decide) (by decide)
        (by decide) (by decide)
    have r2 : FillReach demo15 (0, 0) (0, 2) :=
      FillReach.step (0, 1) (0, 2) r1 (by decide) (by decide)
        (by decide) (by decide)
    have r3 : FillReach demo15 (0, 0) (0, 3) :=
      FillReach.step (0, 2) (0, 3) r2 (by decide) (by decide)
        (by decide) (by decide)
    exact (reveal_flood_fill demo15 (0, 0) (by decide) (by decide) (by decide)
      (by decide) (by decide) (by decide)).1 (0, 3) r3 (by decide)
  · decide

/-! ### Win-detection lemmas -/

theorem countP_and_split (L : List Coord) (f g : Coord → Bool) :
    L.countP f =
      L.countP (fun x => f x && g x) + L.countP (fun x => f x && !g x) := by
  induction L with
  | nil => rfl
  | cons a t ih =>
    rw [List.countP_cons, List.countP_cons, List.countP_cons]
    rcases hf : f a with _ | _ <;> rcases hg : g a with _ | _ <;>
      simp [hf, hg] <;> omega

theorem countP_not_pred (L : List Coord) (f : Coord → Bool) :
    L.countP (fun x => !f x) = L.length - L.countP f := by
  induction L with
  | nil => rfl
  | cons a t ih =>
    rw [List.countP_cons, List.countP_cons, List.length_cons]
    have := List.countP_le_length f (l := t)
    rcases hf : f a with _ | _ <;> simp [hf] <;> omega

theorem allRev_iff_count (b : Board) :
    b.allNonMineRev = true ↔
      b.revealedNonMineCount = b.cells.countP (fun p => !b.mineF p) := by
  have hsplit : b.cells.countP (fun p => !b.mineF p) =
      b.cells.countP (fun p => !b.mineF p && b.revF p) +
      b.cells.countP (fun p => !b.mineF p && !b.revF p) := by
    have := countP_and_split b.cells (fun p => !b.mineF p) (fun p => b.revF p)
    simpa using this
  unfold Board.allNonMineRev Board.revealedNonMineCount
  rw [List.all_eq_true]
  constructor
  · intro hall
    have hC : b.cells.countP (fun p => !b.mineF p && !b.revF p) = 0 :=
      List.countP_eq_zero.mpr (fun p hp => by
        have h := hall p hp
        rcases hm2 : b.mineF p with _ | _ <;> rcases hr2 : b.revF p with _ | _ <;>
          simp [hm2, hr2] at h ⊢)
    omega
  · intro hcount p hp
    by_contra hne
    have hpos : 0 < b.cells.countP (fun p => !b.mineF p && !b.revF p) := by
      rw [List.countP_pos]
      refine ⟨p, hp, ?_⟩
      rcases hm2 : b.mineF p with _ | _ <;> rcases hr2 : b.revF p with _ | _ <;>
        simp [hm2, hr2] at hne ⊢
    omega

theorem status_won_iff (b : Board) :
    b.status = GStatus.won ↔ b.gameOver = true ∧ b.winCached = some true := by
  unfold Board.status
  rcases hg : b.gameOver with _ | _
  · simp
  · by_cases hw : b.winCached = some true <;> simp [hw]

theorem checkWin_fire (b : Board) (hg : b.gameOver = false)
    (hall : b.allNonMineRev = true) :
    b.checkWin = { b with gameOver := true, winCached := some true } := by
  unfold Board.checkWin
  rw [if_neg (by simp [hg]), if_pos hall]

theorem checkWin_skip (b : Board) (hall : b.allNonMineRev = false) :
    b.checkWin = b := by
  unfold Board.checkWin
  split
  · rfl
  · rw [if_neg (by simp [hall])]

/-- Revealing a mine does not change whether all non-mine cells are
revealed. -/
theorem allRev_setRev_mine (c : Board) (p : Coord) (hmp : c.mineF p = true) :
    ({ setRev c p with gameOver := true, winCached := some false }
        : Board).allNonMineRev = c.allNonMineRev := by
  show c.cells.all (fun q => c.mineF q || (if q = p then true else c.revF q)) =
    c.cells.all (fun q => c.mineF q || c.revF q)
  have hpt : ∀ q, (c.mineF q || (if q = p then true else c.revF q)) =
      (c.mineF q || c.revF q) := by
    intro q
    by_cases hqp : q = p
    · subst hqp
      rw [hmp]
      rfl
    · rw [if_neg hqp]
  simp only [hpt]

/-- The win invariant is preserved along every operation sequence: while in
progress not every non-mine cell is revealed, and `winCached = some true`
holds exactly on terminal boards where every non-mine cell is revealed. -/
theorem opReach_winInv (b0 b : Board) (h : OpReach b0 b)
    (hbase : (b0.gameOver = false → b0.allNonMineRev = false) ∧
      (b0.winCached = some true ↔
        b0.gameOver = true ∧ b0.allNonMineRev = true)) :
    (b.gameOver = false → b.allNonMineRev = false) ∧
    (b.winCached = some true ↔
      b.gameOver = true ∧ b.allNonMineRev = true) := by
  induction h with
  | refl => exact hbase
  | flag c p _ ih =>
    unfold Board.flag
    split
    · exact ih
    · exact ih
  | unflag c p _ ih =>
    unfold Board.unflag
    split
    · exact ih
    · exact ih
  | reveal c p _ ih =>
    obtain ⟨c1, c2, c3, c4⟩ := reveal_cases c p
    rcases hg : c.gameOver with _ | _
    · rcases hfp : c.flagF p with _ | _
      · rcases hrp : c.revF p with _ | _
        · rcases hmp : c.mineF p with _ | _
          · -- normal reveal: fill then win check
            rw [c4 hg hfp hrp hmp]
            have hbf := revealRegion_rows (fillFuel c) c [p]
            rcases hall : (revealRegion (fillFuel c) c [p]).allNonMineRev with _ | _
            · rw [checkWin_skip _ hall]
              refine ⟨fun _ => hall, ?_⟩
              rw [hbf.2.2.2.2.2.2.2]
              constructor
              · intro hw
                exact absurd ((ih.2.mp hw).1) (by simp [hg])
              · rintro ⟨hgo, -⟩
                rw [hbf.2.2.2.2.2.2.1, hg] at hgo
                exact absurd hgo (by simp)
            · rw [checkWin_fire _ (by rw [hbf.2.2.2.2.2.2.1]; exact hg) hall]
              have hall2 : ({ revealRegion (fillFuel c) c [p] with
                  gameOver := true, winCached := some true }
                    : Board).allNonMineRev = true := hall
              exact ⟨fun h => absurd h (by simp), by simp [hall2]⟩
          · -- mine reveal: Lost, and the all-revealed flag cannot hold
            rw [c3 hg hfp hrp hmp]
            refine ⟨fun h => absurd h (by simp), ?_⟩
            rw [allRev_setRev_mine c p hmp]
            constructor
            · intro h
              exact absurd h (by simp)
            · rintro ⟨-, hall⟩
              rw [ih.1 hg] at hall
              exact absurd hall (by simp)
        · rw [c2 hg hfp hrp]
          exact ih
      · rw [c1 (Or.inr hfp)]
        exact ih
    · rw [c1 (Or.inl hg)]
      exact ih

/-- C5: a reachable board has status Won exactly when its revealed
non-mine-cell count equals `rows·cols − mineCount`; and on every 1×2 board
with one mine, revealing the non-mine cell immediately yields Won. -/
theorem won_iff_revealed_count (stream : Nat → Nat) (rows cols : Int)
    (mines : Nat) (h1 : 1 ≤ mines) (h2 : (mines : Int) < rows * cols)
    (hr : 0 ≤ rows) (hc : 0 ≤ cols) (b : Board)
    (hb : OpReach (mkBoard stream rows cols mines) b) :
    (b.status = GStatus.won ↔
      (b.revealedNonMineCount : Int) = rows * cols - mines) ∧
    ∀ s2 : Nat → Nat, ∀ p ∈ cellsOf 1 2, (mkBoard s2 1 2 1).mineF p = false →
      ((mkBoard s2 1 2 1).reveal p).2.status = GStatus.won := by
  constructor
  · have hcast : ((rows.toNat * cols.toNat : Nat) : Int) = rows * cols := by
      push_cast
      rw [Int.toNat_of_nonneg hr, Int.toNat_of_nonneg hc]
    have hm : mines ≤ rows.toNat * cols.toNat := by omega
    have hcount0 : (cellsOf rows cols).countP
        (mkBoard stream rows cols mines).mineF = mines := by
      rw [mkBoard_mineF]
      exact (mineList_count stream rows cols mines hm).1
    have hbase1 : (mkBoard stream rows cols mines).allNonMineRev = false := by
      rcases hall : (mkBoard stream rows cols mines).allNonMineRev with _ | _
      · rfl
      · exfalso
        have hal := List.all_eq_true.mp hall
        have hallm : ∀ p ∈ cellsOf rows cols,
            (mkBoard stream rows cols mines).mineF p = true := by
          intro p hp
          have h := hal p hp
          have hrev : (mkBoard stream rows cols mines).revF p = false := rfl
          rw [hrev] at h
          simpa using h
        have hlen : (cellsOf rows cols).countP
            (mkBoard stream rows cols mines).mineF =
            (cellsOf rows cols).length := List.countP_eq_length.mpr hallm
        rw [hcount0, cellsOf_length] at hlen
        omega
    have hinv := opReach_winInv (mkBoard stream rows cols mines) b hb
      ⟨fun _ => hbase1, by
        constructor
        · intro h
          have hwc : (mkBoard stream rows cols mines).winCached = none := rfl
          rw [hwc] at h
          exact absurd h (by simp)
        · rintro ⟨hg, -⟩
          have hgo : (mkBoard stream rows cols mines).gameOver = false := rfl
          rw [hgo] at hg
          exact absurd hg (by simp)⟩
    have hwon : b.status = GStatus.won ↔ b.allNonMineRev = true := by
      rw [status_won_iff]
      constructor
      · rintro ⟨-, hw⟩
        exact (hinv.2.mp hw).2
      · intro hall
        have hg : b.gameOver = true := by
          rcases hgb : b.gameOver with _ | _
          · rw [hinv.1 hgb] at hall
            exact absurd hall (by simp)
          · rfl
        exact ⟨hg, hinv.2.mpr ⟨hg, hall⟩⟩
    rw [hwon, allRev_iff_count]
    obtain ⟨e1, e2, -, e4, -⟩ := opReach_core (mkBoard stream rows cols mines) b hb
    have hcellsb : b.cells = cellsOf rows cols := by
      show cellsOf b.rows b.cols = cellsOf rows cols
      rw [e1, e2]
      rfl
    have hcntm : b.cells.countP b.mineF = mines := by
      rw [hcellsb, e4]
      exact hcount0
    have hcntnot : b.cells.countP (fun p => !b.mineF p) =
        rows.toNat * cols.toNat - mines := by
      have hnp := countP_not_pred b.cells b.mineF
      rw [hcntm, hcellsb, cellsOf_length] at hnp
      rw [← hcellsb] at hnp
      exact hnp
    constructor
    · intro hcq
      rw [hcq, hcntnot]
      omega
    · intro hcq
      rw [hcntnot]
      omega
  · intro s2 p hp hpm
    have hcount1 : (cellsOf 1 2).countP (mkBoard s2 1 2 1).mineF = 1 := by
      rw [mkBoard_mineF]
      exact (mineList_count s2 1 2 1 (by decide)).1
    have hcells : cellsOf 1 2 = [((0 : Int), (0 : Int)), ((0 : Int), (1 : Int))] := by
      decide
    have hother : ∀ q, q ∈ cellsOf 1 2 → q ≠ p →
        (mkBoard s2 1 2 1).mineF q = true := by
      intro q hq hqp
      rw [hcells] at hq hcount1
      rw [hcells] at hp
      simp only [List.countP_cons, List.countP_nil] at hcount1
      have hpc : p = ((0 : Int), (0 : Int)) ∨ p = ((0 : Int), (1 : Int)) := by
        simpa using hp
      have hqc : q = ((0 : Int), (0 : Int)) ∨ q = ((0 : Int), (1 : Int)) := by
        simpa using hq
      rcases hpc with rfl | rfl <;> rcases hqc with rfl | rfl
      · exact absurd rfl hqp
      · rcases hx : (mkBoard s2 1 2 1).mineF (0, 1) with _ | _
        · rw [hpm, hx] at hcount1
          simp at hcount1
        · rfl
      · rcases hx : (mkBoard s2 1 2 1).mineF (0, 0) with _ | _
        · rw [hpm, hx] at hcount1
          simp at hcount1
        · rfl
      · exact absurd rfl hqp
    obtain ⟨-, -, -, c4⟩ := reveal_cases (mkBoard s2 1 2 1) p
    rw [c4 rfl rfl rfl hpm]
    have hbf := revealRegion_rows (fillFuel (mkBoard s2 1 2 1))
      (mkBoard s2 1 2 1) [p]
    have hpcell : p ∈ (mkBoard s2 1 2 1).cells := hp
    have hrevp : (revealRegion (fillFuel (mkBoard s2 1 2 1))
        (mkBoard s2 1 2 1) [p]).revF p = true :=
      revealRegion_queue_rev _ _ [p] (fillPhi_start_le _ p)
        (by simpa using hpcell) p (by simp) rfl
    have hall : (revealRegion (fillFuel (mkBoard s2 1 2 1))
        (mkBoard s2 1 2 1) [p]).allNonMineRev = true := by
      unfold Board.allNonMineRev
      rw [List.all_eq_true]
      intro q hq
      have hqcells : q ∈ cellsOf 1 2 := by
        have hce : (revealRegion (fillFuel (mkBoard s2 1 2 1))
            (mkBoard s2 1 2 1) [p]).cells = cellsOf 1 2 := by
          show cellsOf _ _ = cellsOf 1 2
          rw [hbf.1, hbf.2.1]
          rfl
        rw [hce] at hq
        exact hq
      by_cases hqp : q = p
      · rw [hqp, hrevp]
        simp
      · rw [hbf.2.2.2.1, hother q hqcells hqp]
        simp
    rw [checkWin_fire _ (by rw [hbf.2.2.2.2.2.2.1]; rfl) hall]
    rw [show (((true : Bool), ({ revealRegion (fillFuel (mkBoard s2 1 2 1))
        (mkBoard s2 1 2 1) [p] with gameOver := true, winCached := some true }
          : Board)).2) = ({ revealRegion (fillFuel (mkBoard s2 1 2 1))
        (mkBoard s2 1 2 1) [p] with gameOver := true, winCached := some true }
          : Board) from rfl]
    rw [status_won_iff]
    exact ⟨rfl, rfl⟩

/-! ### CSP enumerator: the pruned search equals the brute force -/

theorem alookup_mem_keys (π : PAssign) (v : Coord) (bv : Bool)
    (h : alookup π v = some bv) : v ∈ π.map Prod.fst := by
  induction π with
  | nil => simp [alookup] at h
  | cons a t ih =>
    rw [List.map_cons, List.mem_cons]
    unfold alookup at h
    split at h
    · left
      rename_i he
      exact he.symm
    · right
      exact ih h

theorem alookup_append_of_not_mem (μ π : PAssign) (v : Coord)
    (h : v ∉ μ.map Prod.fst) : alookup (μ ++ π) v = alookup π v := by
  induction μ with
  | nil => rfl
  | cons a t ih =>
    obtain ⟨w, bv⟩ := a
    rw [List.map_cons, List.mem_cons] at h
    push_neg at h
    show (if w = v then some bv else alookup (t ++ π) v) = alookup π v
    rw [if_neg (fun he => h.1 (by rw [he]))]
    exact ih h.2

theorem extAll_mem (vs : List Coord) : ∀ (π : PAssign) (m : PAssign),
    m ∈ extAll vs π →
    ∃ μ : PAssign, m = μ ++ π ∧ ∀ k, k ∈ μ.map Prod.fst ↔ k ∈ vs := by
  induction vs with
  | nil =>
    intro π m hm
    rw [show extAll [] π = [π] from rfl, List.mem_singleton] at hm
    exact ⟨[], by simpa using hm, by simp⟩
  | cons v vs ih =>
    intro π m hm
    rw [show extAll (v :: vs) π =
      extAll vs ((v, true) :: π) ++ extAll vs ((v, false) :: π) from rfl,
      List.mem_append] at hm
    rcases hm with hm | hm
    · obtain ⟨μ, he, hk⟩ := ih ((v, true) :: π) m hm
      refine ⟨μ ++ [(v, true)], by simpa using he, ?_⟩
      intro k
      rw [List.map_append, List.mem_append, hk]
      simp [or_comm]
    · obtain ⟨μ, he, hk⟩ := ih ((v, false) :: π) m hm
      refine ⟨μ ++ [(v, false)], by simpa using he, ?_⟩
      intro k
      rw [List.map_append, List.mem_append, hk]
      simp [or_comm]

theorem countP_or_le (S : List Coord) (f g : Coord → Bool) :
    S.countP (fun v => f v || g v) ≤ S.countP f + S.countP g := by
  induction S with
  | nil => simp
  | cons a t ih =>
    rw [List.countP_cons, List.countP_cons, List.countP_cons]
    rcases hf : f a with _ | _ <;> rcases hg : g a with _ | _ <;>
      simp [hf, hg] <;> omega

/-- Extension lemma: a full extension preserves every binding of the partial
assignment, provided the extended keys avoid the partial keys. -/
theorem alookup_extension (vs : List Coord) (π m μ : PAssign)
    (hdisj : ∀ k ∈ vs, k ∉ π.map Prod.fst)
    (he : m = μ ++ π) (hk : ∀ k, k ∈ μ.map Prod.fst ↔ k ∈ vs) :
    ∀ v bv, alookup π v = some bv → alookup m v = some bv := by
  intro v bv h
  have hvk : v ∈ π.map Prod.fst := alookup_mem_keys π v bv h
  have hvs : v ∉ vs := fun hv => hdisj v hv hvk
  have hvm : v ∉ μ.map Prod.fst := fun hv => hvs ((hk v).mp hv)
  rw [he, alookup_append_of_not_mem μ π v hvm]
  exact h

/-- Pruning soundness: a full assignment satisfying every constraint exactly
makes every prefix pass `valid_partial` — the pruning removes no model. -/
theorem exactSat_validPartial (cons : List LCon) (vs : List Coord)
    (π m μ : PAssign) (hdisj : ∀ k ∈ vs, k ∉ π.map Prod.fst)
    (he : m = μ ++ π) (hk : ∀ k, k ∈ μ.map Prod.fst ↔ k ∈ vs)
    (hsat : exactSat cons m = true) : validPartial cons π = true := by
  unfold exactSat at hsat
  unfold validPartial
  rw [List.all_eq_true] at hsat ⊢
  intro c hc
  have hcs := hsat c hc
  rw [decide_eq_true_eq] at hcs
  have hext := alookup_extension vs π m μ hdisj he hk
  have hlow : trueCount π c.vars ≤ trueCount m c.vars := by
    refine List.countP_mono_left ?_
    intro v _ hv
    rw [beq_iff_eq] at hv ⊢
    exact hext v true hv
  have hhigh : trueCount m c.vars ≤
      trueCount π c.vars + (c.vars.length - definedCount π c.vars) := by
    have step1 : trueCount m c.vars ≤ c.vars.countP
        (fun v => (alookup π v == some true) || !(alookup π v).isSome) := by
      refine List.countP_mono_left ?_
      intro v _ hv
      rw [beq_iff_eq] at hv
      rcases hdef : alookup π v with _ | bv
      · simp
      · have hmv := hext v bv hdef
        rw [hmv] at hv
        injection hv with hb
        simp [hb]
    have step2 := countP_or_le c.vars (fun v => alookup π v == some true)
      (fun v => !(alookup π v).isSome)
    have step3 : c.vars.countP (fun v => !(alookup π v).isSome) =
        c.vars.length - definedCount π c.vars :=
      countP_not_pred c.vars (fun v => (alookup π v).isSome)
    unfold trueCount definedCount at *
    omega
  have hdle : definedCount π c.vars ≤ c.vars.length :=
    List.countP_le_length _
  rw [Bool.and_eq_true, decide_eq_true_eq, decide_eq_true_eq]
  constructor
  · omega
  · have : (trueCount m c.vars : Int) = c.req := hcs
    push_cast
    omega

/-- The pruned backtracking search returns exactly the brute-force model
list: the filter of all `2^n` assignments through the exact-satisfaction
check, in the same order. -/
theorem dfsModels_eq_bruteforce (cons : List LCon) (vs : List Coord) :
    ∀ π : PAssign, vs.Nodup → (∀ k ∈ vs, k ∉ π.map Prod.fst) →
    dfsModels cons vs π = (extAll vs π).filter (exactSat cons) := by
  induction vs with
  | nil =>
    intro π _ _
    show (if exactSat cons π then [π] else []) = List.filter (exactSat cons) [π]
    rcases h : exactSat cons π with _ | _ <;> simp [List.filter, h]
  | cons v vs ih =>
    intro π hnd hdisj
    have hvnotvs : v ∉ vs := (List.nodup_cons.mp hnd).1
    have hndvs : vs.Nodup := (List.nodup_cons.mp hnd).2
    have hdisj2 : ∀ bv : Bool, ∀ k ∈ vs, k ∉ ((v, bv) :: π).map Prod.fst := by
      intro bv k hk
      rw [List.map_cons, List.mem_cons]
      push_neg
      refine ⟨fun he => hvnotvs ?_, hdisj k (List.mem_cons_of_mem _ hk)⟩
      have hkv : k = v := he
      rw [← hkv]
      exact hk
    show ((if validPartial cons ((v, true) :: π) then
        dfsModels cons vs ((v, true) :: π) else []) ++
      (if validPartial cons ((v, false) :: π) then
        dfsModels cons vs ((v, false) :: π) else [])) =
      List.filter (exactSat cons)
        (extAll vs ((v, true) :: π) ++ extAll vs ((v, false) :: π))
    rw [List.filter_append]
    have hbranch : ∀ bv : Bool,
        (if validPartial cons ((v, bv) :: π) then
          dfsModels cons vs ((v, bv) :: π) else []) =
        List.filter (exactSat cons) (extAll vs ((v, bv) :: π)) := by
      intro bv
      rcases hvp : validPartial cons ((v, bv) :: π) with _ | _
      · rw [if_neg (by simp : ¬(false = true))]
        symm
        rw [List.filter_eq_nil]
        intro m hm
        obtain ⟨μ, he, hk⟩ := extAll_mem vs ((v, bv) :: π) m hm
        intro hsat
        have hcontra := exactSat_validPartial cons vs ((v, bv) :: π) m μ
          (hdisj2 bv) he hk hsat
        rw [hvp] at hcontra
        exact absurd hcontra (by simp)
      · rw [if_pos rfl]
        exact ih ((v, bv) :: π) hndvs (hdisj2 bv)
    rw [hbranch true, hbranch false]

theorem tallyVar_spec (v : Coord) : ∀ (ms : List PAssign) (acc : Nat × Nat),
    (ms.foldl (fun acc m =>
      (acc.1 + (if alookup m v == some true then 1 else 0), acc.2 + 1)) acc) =
    (acc.1 + ms.countP (fun m => alookup m v == some true), acc.2 + ms.length) := by
  intro ms
  induction ms with
  | nil => intro acc; simp
  | cons m t ih =>
    intro acc
    rw [List.foldl_cons, ih, List.countP_cons, List.length_cons]
    rcases h : (alookup m v == some true) with _ | _ <;>
      simp [h, Prod.ext_iff] <;> omega

/-- C1: the probabilities computed by the pruned enumerator equal the
brute-force reference.  The accepted-model list is *exactly* the filter of
all full assignments through the exact constraint check (so the
`valid_partial` pruning removes no model); each variable's total tally
equals the total model count; and each variable's probability is the
brute-force models-with-mine over total-models ratio. -/
theorem csp_enumerator_correct (cons : List LCon) (vars : List Coord)
    (hnd : vars.Nodup) :
    dfsModels cons vars [] = (extAll vars []).filter (exactSat cons) ∧
    (∀ v, (tallyVar (dfsModels cons vars []) v).2 =
      (dfsModels cons vars []).length) ∧
    (∀ v, (tallyVar (dfsModels cons vars []) v).1 =
      ((extAll vars []).filter (exactSat cons)).countP
        (fun m => alookup m v == some true)) ∧
    (∀ v, mineProb (dfsModels cons vars []) v =
      (((extAll vars []).filter (exactSat cons)).countP
        (fun m => alookup m v == some true) : ℚ) /
      (((extAll vars []).filter (exactSat cons)).length : ℚ)) := by
  have heq := dfsModels_eq_bruteforce cons vars [] hnd (by simp)
  have htally : ∀ v, tallyVar (dfsModels cons vars []) v =
      ((dfsModels cons vars []).countP (fun m => alookup m v == some true),
        (dfsModels cons vars []).length) := by
    intro v
    unfold tallyVar
    rw [tallyVar_spec]
    simp
  refine ⟨heq, ?_, ?_, ?_⟩
  · intro v
    rw [htally v]
  · intro v
    rw [htally v, heq]
  · intro v
    unfold mineProb
    rw [htally v, heq]

/-- Witness for C1 on a concrete two-variable component with one constraint
requiring exactly one mine: both tallies are `(1, 2)` and the probability
is `1/2`, matching the brute force. -/
theorem csp_enumerator_correct_witness :
    dfsModels [⟨[(0, 1), (1, 1)], 1⟩] [(0, 1), (1, 1)] [] =
      (extAll [(0, 1), (1, 1)] []).filter (exactSat [⟨[(0, 1), (1, 1)], 1⟩]) ∧
    mineProb (dfsModels [⟨[(0, 1), (1, 1)], 1⟩] [(0, 1), (1, 1)] []) (0, 1) =
      (1 : ℚ) / 2 := by
  have h := csp_enumerator_correct [⟨[(0, 1), (1, 1)], 1⟩] [(0, 1), (1, 1)]
    (by decide)
  refine ⟨h.1, ?_⟩
  have hc1 : (List.filter (exactSat [⟨[(0, 1), (1, 1)], 1⟩])
      (extAll [(0, 1), (1, 1)] [])).countP
      (fun m => alookup m (0, 1) == some true) = 1 := by decide
  have hc2 : (List.filter (exactSat [⟨[(0, 1), (1, 1)], 1⟩])
      (extAll [(0, 1), (1, 1)] [])).length = 2 := by decide
  rw [h.2.2.2 (0, 1), hc1, hc2]
  norm_num

/-! ### Single-point rule soundness -/

theorem headI_mem (l : List Coord) (h : l ≠ []) : l.headI ∈ l := by
  match l with
  | [] => exact absurd rfl h
  | a :: t => simp [List.headI]

theorem inBounds_iff_mem_cells (b : Board) (p : Coord) :
    b.inBounds p = true ↔ p ∈ b.cells := by
  show inB b.rows b.cols p = true ↔ p ∈ cellsOf b.rows b.cols
  rw [mem_cellsOf]
  unfold inB
  simp only [Bool.and_eq_true, decide_eq_true_eq]
  constructor
  · rintro ⟨⟨⟨h1, h2⟩, h3⟩, h4⟩
    exact ⟨h1, h2, h3, h4⟩
  · rintro ⟨h1, h2, h3, h4⟩
    exact ⟨⟨⟨h1, h2⟩, h3⟩, h4⟩

theorem mem_snapshot_flagged (b : Board) (p : Coord) :
    p ∈ b.stateForAgent.flagged ↔ p ∈ b.cells ∧ b.flagF p = true := by
  show p ∈ b.cells.filter (fun p => b.flagF p) ↔ _
  rw [List.mem_filter]

theorem mem_snapshot_covered (b : Board) (p : Coord) :
    p ∈ b.stateForAgent.covered ↔
      p ∈ b.cells ∧ b.flagF p = false ∧ b.revF p = false := by
  show p ∈ b.cells.filter (fun p => !b.flagF p && !b.revF p) ↔ _
  rw [List.mem_filter]
  simp only [Bool.and_eq_true, Bool.not_eq_true']

theorem mem_snapshot_numbers (b : Board) (cell : Coord) (n : Int)
    (h : (cell, n) ∈ b.stateForAgent.numbers) :
    cell ∈ b.cells ∧ b.flagF cell = false ∧ b.revF cell = true ∧
      n = b.adjF cell := by
  have h2 : ∃ a ∈ b.cells, (if b.flagF a then none
      else if b.revF a then some (a, b.adjF a) else none) = some (cell, n) :=
    List.mem_filterMap.mp h
  obtain ⟨a, ha, he⟩ := h2
  rcases hf : b.flagF a with _ | _
  · rcases hr : b.revF a with _ | _
    · rw [hf, hr] at he
      simp at he
    · rw [hf, hr] at he
      simp only [if_neg (by decide : ¬(false = true)), if_pos rfl,
        Option.some.injEq, Prod.mk.injEq] at he
      obtain ⟨rfl, rfl⟩ := he
      exact ⟨ha, hf, hr, rfl⟩
  · rw [hf] at he
    simp at he

theorem flgOf_filter (b : Board) (cell : Coord) :
    flgOf b b.stateForAgent cell = (b.neighbors cell).filter b.flagF := by
  unfold flgOf neighborBuckets
  refine List.filter_congr ?_
  intro nb hnb
  have hc := mem_neighbors_mem_cells b cell nb hnb
  rcases hf : b.flagF nb with _ | _
  · simp [mem_snapshot_flagged, hf]
  · simp [mem_snapshot_flagged, hf, hc]

theorem covOf_filter (b : Board) (cell : Coord) :
    covOf b b.stateForAgent cell =
      (b.neighbors cell).filter (fun nb => !b.flagF nb && !b.revF nb) := by
  unfold covOf neighborBuckets
  refine List.filter_congr ?_
  intro nb hnb
  have hc := mem_neighbors_mem_cells b cell nb hnb
  rcases hf : b.flagF nb with _ | _
  · rcases hr : b.revF nb with _ | _
    · simp [mem_snapshot_flagged, mem_snapshot_covered, hf, hr, hc]
    · simp [mem_snapshot_flagged, mem_snapshot_covered, hf, hr, hc]
  · simp [mem_snapshot_flagged, hf, hc]

/-- The key counting identity behind both single-point rules: for a
numbered cell on a board whose flags are all mines and whose revealed cells
are all safe, the number of mines among the covered neighbours is the
number minus the flagged-neighbour count. -/
theorem bucket_mine_count (b : Board) (cell : Coord) (n : Int)
    (hflag : ∀ p, b.flagF p = true → b.mineF p = true)
    (hrev : ∀ p, b.revF p = true → b.mineF p = false)
    (hadjc : ∀ p ∈ b.cells, b.adjF p = if b.mineF p then -1
      else ((nbrsIn b.rows b.cols p).countP b.mineF : Int))
    (hmem : (cell, n) ∈ b.stateForAgent.numbers) :
    ((covOf b b.stateForAgent cell).countP b.mineF : Int) =
      n - ((flgOf b b.stateForAgent cell).length : Int) := by
  obtain ⟨hcell, hcf, hcr, hn⟩ := mem_snapshot_numbers b cell n hmem
  have hcm : b.mineF cell = false := hrev cell hcr
  have hnval : n = ((b.neighbors cell).countP b.mineF : Int) := by
    rw [hn, hadjc cell hcell, if_neg (by simp [hcm])]
    rfl
  have s1 := countP_and_split (b.neighbors cell) b.mineF b.flagF
  have s2 : (b.neighbors cell).countP (fun x => b.mineF x && b.flagF x) =
      (b.neighbors cell).countP b.flagF := by
    refine List.countP_congr ?_
    intro x _
    constructor
    · intro h
      exact ((Bool.and_eq_true _ _).mp h).2
    · intro h
      rw [h, hflag x h]
      rfl
  have s3 : (flgOf b b.stateForAgent cell).length =
      (b.neighbors cell).countP b.flagF := by
    rw [flgOf_filter, ← List.countP_eq_length_filter]
  have s4 := countP_and_split (b.neighbors cell)
    (fun x => b.mineF x && !b.flagF x) b.revF
  have s5 : (b.neighbors cell).countP
      (fun x => (b.mineF x && !b.flagF x) && b.revF x) = 0 := by
    refine List.countP_eq_zero.mpr ?_
    intro x _ h
    rw [Bool.and_eq_true, Bool.and_eq_true] at h
    rw [hrev x h.2] at h
    exact absurd h.1.1 (by simp)
  have s6 : (covOf b b.stateForAgent cell).countP b.mineF =
      (b.neighbors cell).countP
        (fun x => (b.mineF x && !b.flagF x) && !b.revF x) := by
    rw [covOf_filter, List.countP_filter]
    refine List.countP_congr ?_
    intro x _
    rw [Bool.and_assoc]
  rw [s2, ← s3] at s1
  rw [s5, s6.symm] at s4
  omega

theorem spMinePass_sound (b : Board)
    (hflag : ∀ p, b.flagF p = true → b.mineF p = true)
    (hrev : ∀ p, b.revF p = true → b.mineF p = false)
    (hadjc : ∀ p ∈ b.cells, b.adjF p = if b.mineF p then -1
      else ((nbrsIn b.rows b.cols p).countP b.mineF : Int)) :
    ∀ L, (∀ x ∈ L, x ∈ b.stateForAgent.numbers) →
    ∀ p, spMinePass b b.stateForAgent L = some (Action.flagAct p) →
      b.mineF p = true := by
  intro L
  induction L with
  | nil =>
    intro _ p h
    simp [spMinePass] at h
  | cons cn rest ih =>
    intro hsub p h
    obtain ⟨cell, n⟩ := cn
    simp only [spMinePass] at h
    split at h
    · rename_i hcond
      obtain ⟨hceq, hcpos⟩ := hcond
      injection h with he
      injection he with he2
      have hcnt := bucket_mine_count b cell n hflag hrev hadjc
        (hsub (cell, n) (List.mem_cons_self _ _))
      have hall : ∀ x ∈ covOf b b.stateForAgent cell, b.mineF x = true := by
        refine List.countP_eq_length.mp ?_
        omega
      rw [← he2]
      exact hall _ (headI_mem _ (by
        intro hnil
        rw [hnil] at hcpos
        simp at hcpos))
    · exact ih (fun x hx => hsub x (List.mem_cons_of_mem _ hx)) p h

theorem spSafePass_sound (b : Board)
    (hflag : ∀ p, b.flagF p = true → b.mineF p = true)
    (hrev : ∀ p, b.revF p = true → b.mineF p = false)
    (hadjc : ∀ p ∈ b.cells, b.adjF p = if b.mineF p then -1
      else ((nbrsIn b.rows b.cols p).countP b.mineF : Int)) :
    ∀ L, (∀ x ∈ L, x ∈ b.stateForAgent.numbers) →
    ∀ p, spSafePass b b.stateForAgent L = some (Action.revealAct p) →
      b.mineF p = false := by
  intro L
  induction L with
  | nil =>
    intro _ p h
    simp [spSafePass] at h
  | cons cn rest ih =>
    intro hsub p h
    obtain ⟨cell, n⟩ := cn
    simp only [spSafePass] at h
    split at h
    · rename_i hcond
      obtain ⟨hceq, hcpos⟩ := hcond
      injection h with he
      injection he with he2
      have hcnt := bucket_mine_count b cell n hflag hrev hadjc
        (hsub (cell, n) (List.mem_cons_self _ _))
      have hnone : ∀ x ∈ covOf b b.stateForAgent cell, ¬b.mineF x = true := by
        refine List.countP_eq_zero.mp ?_
        omega
      rw [← he2]
      have := hnone _ (headI_mem _ (by
        intro hnil
        rw [hnil] at hcpos
        simp at hcpos))
      rcases hx : b.mineF (covOf b b.stateForAgent cell).headI with _ | _
      · rfl
      · exact absurd hx this
    · exact ih (fun x hx => hsub x (List.mem_cons_of_mem _ hx)) p h

/-- The zero-adjacency cells of an adjacency-correct board have no mine
neighbours. -/
theorem adjZero_safe (c : Board)
    (iha : ∀ p ∈ c.cells, c.adjF p = if c.mineF p then -1
      else ((nbrsIn c.rows c.cols p).countP c.mineF : Int)) :
    ∀ x ∈ c.cells, c.adjF x = 0 →
      ∀ nb ∈ c.neighbors x, c.mineF nb = false := by
  intro x hx h0 nb hnb
  have ha := iha x hx
  rw [h0] at ha
  rcases hmx : c.mineF x with _ | _
  · rw [hmx] at ha
    rw [if_neg (by simp)] at ha
    have hcnt : (nbrsIn c.rows c.cols x).countP c.mineF = 0 := by omega
    have := List.countP_eq_zero.mp hcnt nb hnb
    rcases hy : c.mineF nb with _ | _
    · rfl
    · exact absurd hy this
  · rw [hmx] at ha
    rw [if_pos rfl] at ha
    omega

/-- Invariant of agent play: all flags sit on mines, on in-progress boards
every revealed cell is safe, and the adjacency grid stays correct. -/
theorem playReach_invariant (stream : Nat → Nat) (rows cols : Int)
    (mines : Nat) (b : Board) (hb : PlayReach stream rows cols mines b) :
    (∀ p, b.flagF p = true → b.mineF p = true) ∧
    (b.gameOver = false → ∀ p, b.revF p = true → b.mineF p = false) ∧
    (∀ p ∈ b.cells, b.adjF p = if b.mineF p then -1
      else ((nbrsIn b.rows b.cols p).countP b.mineF : Int)) := by
  induction hb with
  | init =>
    refine ⟨fun p h => absurd (show (false : Bool) = true from h) (by simp),
      fun _ p h => absurd (show (false : Bool) = true from h) (by simp), ?_⟩
    intro p _
    rfl
  | step_reveal c p hc hin ih =>
    obtain ⟨ihf, ihr, iha⟩ := ih
    obtain ⟨e1, e2, e3, e4, e5, e6⟩ := reveal_core c p
    have hcells : (c.reveal p).2.cells = c.cells := by
      show cellsOf _ _ = cellsOf _ _
      rw [e1, e2]
    refine ⟨?_, ?_, ?_⟩
    · intro q hq
      rw [e6] at hq
      rw [e4]
      exact ihf q hq
    · obtain ⟨c1, c2, c3, c4⟩ := reveal_cases c p
      rcases hg : c.gameOver with _ | _
      · rcases hfp : c.flagF p with _ | _
        · rcases hrp : c.revF p with _ | _
          · rcases hmp : c.mineF p with _ | _
            · rw [c4 hg hfp hrp hmp]
              intro _ q hq
              have hbff := revealRegion_rows (fillFuel c) c [p]
              have hcw := checkWin_rows (revealRegion (fillFuel c) c [p])
              have hqrev : (revealRegion (fillFuel c) c [p]).revF q = true := by
                have hq2 : ((revealRegion (fillFuel c) c [p]).checkWin).revF q =
                  true := hq
                rw [hcw.2.2.2.2.2.1] at hq2
                exact hq2
              show ((revealRegion (fillFuel c) c [p]).checkWin).mineF q = false
              rw [hcw.2.2.2.1, hbff.2.2.2.1]
              rcases hqm : c.mineF q with _ | _
              · rfl
              · have hcrev := revealRegion_no_mine (fillFuel c) c [p]
                  (by simpa using hmp) (adjZero_safe c iha)
                  (by simpa using (inBounds_iff_mem_cells c p).mp hin)
                  q hqm hqrev
                rw [ihr hg q hcrev] at hqm
                exact absurd hqm (by simp)
            · rw [c3 hg hfp hrp hmp]
              intro hg2
              exact absurd hg2 (by simp)
          · rw [c2 hg hfp hrp]
            exact ihr
        · rw [c1 (Or.inr hfp)]
          exact ihr
      · rw [c1 (Or.inl hg)]
        exact ihr
    · intro q hq
      rw [hcells] at hq
      have := iha q hq
      rw [e5, e4, e1, e2]
      exact this
  | step_flag c p hc hg hfire ih =>
    obtain ⟨ihf, ihr, iha⟩ := ih
    unfold Board.flag
    split
    · exact ⟨ihf, ihr, iha⟩
    · refine ⟨?_, ihr, iha⟩
      intro q hq
      show c.mineF q = true
      by_cases hqp : q = p
      · subst hqp
        exact spMinePass_sound c ihf (ihr hg) iha c.stateForAgent.numbers
          (fun x hx => hx) q hfire
      · have hq2 : (if q = p then true else c.flagF q) = true := hq
        rw [if_neg hqp] at hq2
        exact ihf q hq2

/-- C2: in every in-progress board state reachable during agent play from a
fresh board (flags placed only by the certain-mine rule), a cell selected by
the certain-mine rule is truly a mine and a cell selected by the
certain-safe rule is truly safe. -/
theorem single_point_rules_sound (stream : Nat → Nat) (rows cols : Int)
    (mines : Nat) (b : Board) (hb : PlayReach stream rows cols mines b)
    (hg : b.gameOver = false) :
    (∀ p, spMinePass b b.stateForAgent b.stateForAgent.numbers =
      some (Action.flagAct p) → b.mineF p = true) ∧
    (∀ p, spSafePass b b.stateForAgent b.stateForAgent.numbers =
      some (Action.revealAct p) → b.mineF p = false) := by
  obtain ⟨ihf, ihr, iha⟩ := playReach_invariant stream rows cols mines b hb
  exact ⟨fun p h => spMinePass_sound b ihf (ihr hg) iha _ (fun x hx => hx) p h,
    fun p h => spSafePass_sound b ihf (ihr hg) iha _ (fun x hx => hx) p h⟩

/-- Witness for C2: on the 1×5 board with its mine at `(0,2)`, after
revealing `(0,0)` the certain-mine rule fires on `(0,2)`, which really is a
mine. -/
theorem single_point_rules_sound_witness :
    spMinePass (demoSP.reveal (0, 0)).2 (demoSP.reveal (0, 0)).2.stateForAgent
      (demoSP.reveal (0, 0)).2.stateForAgent.numbers =
      some (Action.flagAct (0, 2)) ∧
    (demoSP.reveal (0, 0)).2.mineF (0, 2) = true := by
  refine ⟨by decide, ?_⟩
  have hreach : PlayReach (fun _ => 2) 1 5 1 (demoSP.reveal (0, 0)).2 :=
    PlayReach.step_reveal demoSP (0, 0) PlayReach.init (by decide)
  exact (single_point_rules_sound (fun _ => 2) 1 5 1 (demoSP.reveal (0, 0)).2
    hreach (by decide)).1 (0, 2) (by decide)

/-! ### Phase 2 fallback and the global random source (C7) -/

/-- C7 evidence: on the fresh 2×2 board the CSP path has an empty frontier
and falls back to `random.choice` on the *process-global* generator; with
the agent draw fixed at 0, two different global draws produce two different
actions, so the emitted action sequence is not a function of the
constructor seeds. -/
theorem phase2_global_random_dependence :
    phase2Choose demo22 14 0 0 = some (Action.revealAct (0, 0)) ∧
    phase2Choose demo22 14 0 1 = some (Action.revealAct (0, 1)) ∧
    phase2Choose demo22 14 0 0 ≠ phase2Choose demo22 14 0 1 := by
  refine ⟨by decide, by decide, by decide⟩

/-! ### Phase 1 decision structure (C9) -/

theorem spMinePass_find (b : Board) (st : Snapshot) (L : List (Coord × Int)) :
    spMinePass b st L =
      (L.find? (fun cn =>
        decide (cn.2 - ((flgOf b st cn.1).length : Int) =
          ((covOf b st cn.1).length : Int)) &&
        decide (0 < (covOf b st cn.1).length))).map
        (fun cn => Action.flagAct (covOf b st cn.1).headI) := by
  induction L with
  | nil => rfl
  | cons cn rest ih =>
    obtain ⟨cell, n⟩ := cn
    show (if n - ((flgOf b st cell).length : Int) =
          ((covOf b st cell).length : Int) ∧ 0 < (covOf b st cell).length then
        some (Action.flagAct (covOf b st cell).headI)
      else spMinePass b st rest) = _
    by_cases hcond : n - ((flgOf b st cell).length : Int) =
        ((covOf b st cell).length : Int) ∧ 0 < (covOf b st cell).length
    · rw [if_pos hcond, List.find?_cons_of_pos _ (by
        simp only [Bool.and_eq_true, decide_eq_true_eq]
        exact hcond)]
      rfl
    · rw [if_neg hcond, ih, List.find?_cons_of_neg _ (by
        simp only [Bool.and_eq_true, decide_eq_true_eq]
        exact hcond)]

theorem spSafePass_find (b : Board) (st : Snapshot) (L : List (Coord × Int)) :
    spSafePass b st L =
      (L.find? (fun cn =>
        decide (cn.2 = ((flgOf b st cn.1).length : Int)) &&
        decide (0 < (covOf b st cn.1).length))).map
        (fun cn => Action.revealAct (covOf b st cn.1).headI) := by
  induction L with
  | nil => rfl
  | cons cn rest ih =>
    obtain ⟨cell, n⟩ := cn
    show (if n = ((flgOf b st cell).length : Int) ∧
          0 < (covOf b st cell).length then
        some (Action.revealAct (covOf b st cell).headI)
      else spSafePass b st rest) = _
    by_cases hcond : n = ((flgOf b st cell).length : Int) ∧
        0 < (covOf b st cell).length
    · rw [if_pos hcond, List.find?_cons_of_pos _ (by
        simp only [Bool.and_eq_true, decide_eq_true_eq]
        exact hcond)]
      rfl
    · rw [if_neg hcond, ih, List.find?_cons_of_neg _ (by
        simp only [Bool.and_eq_true, decide_eq_true_eq]
        exact hcond)]

theorem spMinePass_none_of_no_covered (b : Board) (st : Snapshot)
    (hcov : ∀ cell, covOf b st cell = []) (L : List (Coord × Int)) :
    spMinePass b st L = none := by
  induction L with
  | nil => rfl
  | cons cn rest ih =>
    obtain ⟨cell, n⟩ := cn
    show (if n - ((flgOf b st cell).length : Int) =
          ((covOf b st cell).length : Int) ∧ 0 < (covOf b st cell).length then
        some (Action.flagAct (covOf b st cell).headI)
      else spMinePass b st rest) = none
    rw [if_neg (by
      rw [hcov cell]
      rintro ⟨-, h2⟩
      simp at h2)]
    exact ih

theorem spSafePass_none_of_no_covered (b : Board) (st : Snapshot)
    (hcov : ∀ cell, covOf b st cell = []) (L : List (Coord × Int)) :
    spSafePass b st L = none := by
  induction L with
  | nil => rfl
  | cons cn rest ih =>
    obtain ⟨cell, n⟩ := cn
    show (if n = ((flgOf b st cell).length : Int) ∧
          0 < (covOf b st cell).length then
        some (Action.revealAct (covOf b st cell).headI)
      else spSafePass b st rest) = none
    rw [if_neg (by
      rw [hcov cell]
      rintro ⟨-, h2⟩
      simp at h2)]
    exact ih

/-- C9: the Phase 1 decision runs the certain-mine rule as one full pass
over the numbered cells (in their fixed row-major snapshot order) before
the certain-safe pass, each pass firing on the *first* qualifying cell and
targeting that cell's first covered neighbour; a mine-rule hit anywhere
takes priority over any safe-rule hit; at most one action is returned per
call (the `Option` result never batches certainties), and no action is
returned exactly when no covered cell remains. -/
theorem phase1_two_pass_priority (b : Board) (agentRnd : Nat) :
    (spMinePass b b.stateForAgent b.stateForAgent.numbers =
      (b.stateForAgent.numbers.find? (fun cn =>
        decide (cn.2 - ((flgOf b b.stateForAgent cn.1).length : Int) =
          ((covOf b b.stateForAgent cn.1).length : Int)) &&
        decide (0 < (covOf b b.stateForAgent cn.1).length))).map
        (fun cn => Action.flagAct (covOf b b.stateForAgent cn.1).headI)) ∧
    (spSafePass b b.stateForAgent b.stateForAgent.numbers =
      (b.stateForAgent.numbers.find? (fun cn =>
        decide (cn.2 = ((flgOf b b.stateForAgent cn.1).length : Int)) &&
        decide (0 < (covOf b b.stateForAgent cn.1).length))).map
        (fun cn => Action.revealAct (covOf b b.stateForAgent cn.1).headI)) ∧
    ((phase1ChooseL b agentRnd).1 =
      match spMinePass b b.stateForAgent b.stateForAgent.numbers with
      | some a => some a
      | none =>
        match spSafePass b b.stateForAgent b.stateForAgent.numbers with
        | some a => some a
        | none =>
          if b.stateForAgent.covered.isEmpty then none
          else some (Action.revealAct (b.stateForAgent.covered.getD
            (agentRnd % b.stateForAgent.covered.length) (0, 0)))) ∧
    ((phase1ChooseL b agentRnd).1 = none ↔ b.stateForAgent.covered = []) := by
  have hmatch : (phase1ChooseL b agentRnd).1 =
      match spMinePass b b.stateForAgent b.stateForAgent.numbers with
      | some a => some a
      | none =>
        match spSafePass b b.stateForAgent b.stateForAgent.numbers with
        | some a => some a
        | none =>
          if b.stateForAgent.covered.isEmpty then none
          else some (Action.revealAct (b.stateForAgent.covered.getD
            (agentRnd % b.stateForAgent.covered.length) (0, 0))) := by
    unfold phase1ChooseL
    rcases hm : spMinePass b b.stateForAgent b.stateForAgent.numbers with _ | a
    · rcases hs : spSafePass b b.stateForAgent b.stateForAgent.numbers with _ | a
      · rcases hce : b.stateForAgent.covered.isEmpty with _ | _ <;>
          simp [hm, hs, hce]
      · simp [hm, hs]
    · simp [hm]
  have hcovEmpty : b.stateForAgent.covered = [] →
      ∀ cell, covOf b b.stateForAgent cell = [] := by
    intro h cell
    unfold covOf neighborBuckets
    rw [List.filter_eq_nil_iff]
    intro nb _
    rw [h]
    simp
  refine ⟨spMinePass_find b b.stateForAgent _, spSafePass_find b b.stateForAgent _,
    hmatch, ?_⟩
  constructor
  · intro h
    by_contra hne
    rw [hmatch] at h
    rcases hm : spMinePass b b.stateForAgent b.stateForAgent.numbers with _ | a
    · rcases hs : spSafePass b b.stateForAgent b.stateForAgent.numbers with _ | a
      · rw [hm, hs] at h
        have hce : b.stateForAgent.covered.isEmpty = false := by
          rcases hce2 : b.stateForAgent.covered.isEmpty with _ | _
          · rfl
          · exact absurd (List.isEmpty_iff.mp hce2) hne
        rw [hce] at h
        simp at h
      · rw [hm, hs] at h
        simp at h
    · rw [hm] at h
      simp at h
  · intro h
    rw [hmatch, spMinePass_none_of_no_covered b _ (hcovEmpty h),
      spSafePass_none_of_no_covered b _ (hcovEmpty h)]
    rw [show b.stateForAgent.covered.isEmpty = true from by rw [h]; rfl]
    rfl

/-! ### Frontier components (C10) -/

theorem countP_succ_le (M : List Coord) (f g : Coord → Bool)
    (hpt : ∀ v, f v = true → g v = true) (y : Coord) (hy : y ∈ M)
    (hfy : f y = false) (hgy : g y = true) :
    M.countP f + 1 ≤ M.countP g := by
  induction M with
  | nil => simp at hy
  | cons a t ih =>
    rw [List.countP_cons, List.countP_cons]
    by_cases hay : a = y
    · rw [hay, hfy, hgy, if_neg (by decide : ¬(false = true)), if_pos rfl]
      have := List.countP_mono_left (fun v _ hv => hpt v hv) (l := t)
      omega
    · have hle : (if f a = true then 1 else 0) ≤ (if g a = true then 1 else 0) := by
        rcases hfa : f a with _ | _
        · simp
        · rw [hpt a hfa]
      rcases List.mem_cons.mp hy with h | h
      · exact absurd h.symm hay
      · have := ih h
        omega

theorem countP_not_mem_batch (frontier vis : List Coord) :
    ∀ ys : List Coord, ys.Nodup → (∀ y ∈ ys, y ∈ frontier) →
    (∀ y ∈ ys, y ∉ vis) →
    frontier.countP (fun v => !decide (v ∈ ys ++ vis)) + ys.length ≤
      frontier.countP (fun v => !decide (v ∈ vis)) := by
  intro ys
  induction ys generalizing vis with
  | nil =>
    intro _ _ _
    have : frontier.countP (fun v => !decide (v ∈ ([] : List Coord) ++ vis)) =
        frontier.countP (fun v => !decide (v ∈ vis)) := by
      refine List.countP_congr ?_
      intro x _
      simp
    simp only [List.length_nil]
    omega
  | cons y t ih =>
    intro hnd hsub hdisj
    have hnd2 := List.nodup_cons.mp hnd
    have step1 : frontier.countP (fun v => !decide (v ∈ (y :: t) ++ vis)) + 1 ≤
        frontier.countP (fun v => !decide (v ∈ t ++ vis)) := by
      refine countP_succ_le frontier _ _ ?_ y (hsub y (List.mem_cons_self _ _)) ?_ ?_
      · intro v hv
        simp only [Bool.not_eq_true', decide_eq_false_iff_not] at hv ⊢
        intro hmem
        exact hv (by
          rcases List.mem_append.mp hmem with h | h
          · exact List.mem_append_left _ (List.mem_cons_of_mem _ h)
          · exact List.mem_append_right _ h)
      · simp
      · simp only [Bool.not_eq_true', decide_eq_false_iff_not]
        intro hmem
        rcases List.mem_append.mp hmem with h | h
        · exact hnd2.1 h
        · exact hdisj y (List.mem_cons_self _ _) h
    have step2 := ih vis hnd2.2 (fun z hz => hsub z (List.mem_cons_of_mem _ hz))
      (fun z hz => hdisj z (List.mem_cons_of_mem _ hz))
    simp only [List.length_cons]
    omega

theorem compBFS_mono (adjN : Coord → List Coord) (fuel : Nat) :
    ∀ visited comp q,
      (∀ x ∈ comp, x ∈ (compBFS adjN fuel visited comp q).1) ∧
      (∀ x ∈ visited, x ∈ (compBFS adjN fuel visited comp q).2) := by
  induction fuel with
  | zero => intro visited comp q; exact ⟨fun x h => h, fun x h => h⟩
  | succ n ih =>
    intro visited comp q
    match q with
    | [] => exact ⟨fun x h => h, fun x h => h⟩
    | x :: q =>
      constructor
      · intro z hz
        exact (ih _ _ _).1 z (List.mem_append_right _ hz)
      · intro z hz
        exact (ih _ _ _).2 z (List.mem_append_right _ hz)

theorem compBFS_spec (adjN : Coord → List Coord) (fuel : Nat) :
    ∀ visited comp q,
      (∀ x ∈ (compBFS adjN fuel visited comp q).2,
        x ∈ visited ∨ x ∈ (compBFS adjN fuel visited comp q).1) ∧
      (∀ x ∈ (compBFS adjN fuel visited comp q).1,
        x ∈ comp ∨ x ∉ visited) ∧
      ((∀ x ∈ comp, x ∈ visited) →
        ∀ x ∈ (compBFS adjN fuel visited comp q).1,
          x ∈ (compBFS adjN fuel visited comp q).2) := by
  induction fuel with
  | zero =>
    intro visited comp q
    exact ⟨fun x h => Or.inl h, fun x h => Or.inl h, fun hs x h => hs x h⟩
  | succ n ih =>
    intro visited comp q
    match q with
    | [] => exact ⟨fun x h => Or.inl h, fun x h => Or.inl h, fun hs x h => hs x h⟩
    | x :: q =>
      obtain ⟨s1, s2, s3⟩ := ih ((adjN x).filter (fun y => !decide (y ∈ visited)) ++
        visited) ((adjN x).filter (fun y => !decide (y ∈ visited)) ++ comp)
        ((adjN x).filter (fun y => !decide (y ∈ visited)) ++ q)
      refine ⟨?_, ?_, ?_⟩
      · intro z hz
        rcases s1 z hz with h | h
        · rcases List.mem_append.mp h with h2 | h2
          · right
            exact (compBFS_mono adjN n _ _ _).1 z (List.mem_append_left _ h2)
          · left
            exact h2
        · right
          exact h
      · intro z hz
        rcases s2 z hz with h | h
        · rcases List.mem_append.mp h with h2 | h2
          · right
            have := List.mem_filter.mp h2
            simp only [Bool.not_eq_true', decide_eq_false_iff_not] at this
            exact this.2
          · left
            exact h2
        · right
          intro hzv
          exact h (List.mem_append_right _ hzv)
      · intro hs z hz
        refine s3 ?_ z hz
        intro w hw
        rcases List.mem_append.mp hw with h2 | h2
        · exact List.mem_append_left _ h2
        · exact List.mem_append_right _ (hs w h2)

theorem compBFS_subset (adjN : Coord → List Coord) (frontier : List Coord)
    (hadjN : ∀ x, ∀ y ∈ adjN x, y ∈ frontier) (fuel : Nat) :
    ∀ visited comp q, (∀ x ∈ comp, x ∈ frontier) →
      ∀ x ∈ (compBFS adjN fuel visited comp q).1, x ∈ frontier := by
  induction fuel with
  | zero => intro visited comp q hc x hx; exact hc x hx
  | succ n ih =>
    intro visited comp q hc
    match q with
    | [] => exact hc
    | x :: q =>
      refine ih _ _ _ ?_
      intro z hz
      rcases List.mem_append.mp hz with h | h
      · exact hadjN x z (List.mem_of_mem_filter h)
      · exact hc z h

theorem compBFS_closed (adjN : Coord → List Coord) (frontier : List Coord)
    (hadjN : ∀ x, ∀ y ∈ adjN x, y ∈ frontier)
    (hadjnd : ∀ x, (adjN x).Nodup) (fuel : Nat) :
    ∀ visited comp q,
      q.length + frontier.countP (fun v => !decide (v ∈ visited)) ≤ fuel →
      (∀ x ∈ q, x ∈ comp) → (∀ x ∈ comp, x ∈ visited) →
      (∀ a ∈ comp, a ∉ q → ∀ y ∈ adjN a, y ∈ visited) →
      ∀ a ∈ (compBFS adjN fuel visited comp q).1, ∀ y ∈ adjN a,
        y ∈ (compBFS adjN fuel visited comp q).2 := by
  induction fuel with
  | zero =>
    intro visited comp q hfuel _ _ hpend a ha y hy
    have hq0 : q = [] := by
      have : q.length = 0 := by omega
      rw [List.length_eq_zero] at this
      exact this
    exact hpend a ha (by rw [hq0]; simp) y hy
  | succ n ih =>
    intro visited comp q hfuel hq hcv hpend
    match q with
    | [] =>
      intro a ha y hy
      exact hpend a ha (by simp) y hy
    | x :: q =>
      set ys := (adjN x).filter (fun y => !decide (y ∈ visited)) with hys
      have hysnd : ys.Nodup := (hadjnd x).filter _
      have hyssub : ∀ y ∈ ys, y ∈ frontier :=
        fun y hy => hadjN x y (List.mem_of_mem_filter hy)
      have hysdisj : ∀ y ∈ ys, y ∉ visited := by
        intro y hy
        have := (List.mem_filter.mp hy).2
        simp only [Bool.not_eq_true', decide_eq_false_iff_not] at this
        exact this
      refine ih (ys ++ visited) (ys ++ comp) (ys ++ q) ?_ ?_ ?_ ?_
      · have hbatch := countP_not_mem_batch frontier visited ys hysnd hyssub hysdisj
        rw [List.length_append]
        simp only [List.length_cons] at hfuel
        omega
      · intro z hz
        rcases List.mem_append.mp hz with h | h
        · exact List.mem_append_left _ h
        · exact List.mem_append_right _ (hq z (List.mem_cons_of_mem _ h))
      · intro z hz
        rcases List.mem_append.mp hz with h | h
        · exact List.mem_append_left _ h
        · exact List.mem_append_right _ (hcv z h)
      · intro a ha hanq y hy
        rcases List.mem_append.mp ha with h | h
        · exact absurd (List.mem_append_left _ h) hanq
        · by_cases hax : a = x
          · subst hax
            by_cases hyv : y ∈ visited
            · exact List.mem_append_right _ hyv
            · refine List.mem_append_left _ ?_
              rw [hys, List.mem_filter]
              exact ⟨hy, by
                simp only [Bool.not_eq_true', decide_eq_false_iff_not]
                exact hyv⟩
          · have hanq2 : a ∉ x :: q := by
              intro hmem
              rcases List.mem_cons.mp hmem with h2 | h2
              · exact hax h2
              · exact hanq (List.mem_append_right _ h2)
            exact List.mem_append_right _ (hpend a h hanq2 y hy)

theorem componentsFold_cons (adjN : Coord → List Coord) (fuel : Nat)
    (v : Coord) (vs visited : List Coord) (acc : List (List Coord)) :
    componentsFold adjN fuel (v :: vs) visited acc =
      if decide (v ∈ visited) = true then
        componentsFold adjN fuel vs visited acc
      else componentsFold adjN fuel vs
        (compBFS adjN fuel (v :: visited) [v] [v]).2
        (acc ++ [(compBFS adjN fuel (v :: visited) [v] [v]).1]) := rfl

theorem componentsFold_mono (adjN : Coord → List Coord) (fuel : Nat) :
    ∀ vs visited acc,
      (∀ x ∈ visited, x ∈ (componentsFold adjN fuel vs visited acc).2) ∧
      (∀ C ∈ acc, C ∈ (componentsFold adjN fuel vs visited acc).1) := by
  intro vs
  induction vs with
  | nil => intro visited acc; exact ⟨fun x h => h, fun C h => h⟩
  | cons v vs ih =>
    intro visited acc
    rw [componentsFold_cons]
    split
    · exact ih visited acc
    · constructor
      · intro x hx
        refine (ih _ _).1 x ?_
        exact (compBFS_mono adjN fuel (v :: visited) [v] [v]).2 x
          (List.mem_cons_of_mem _ hx)
      · intro C hC
        exact (ih _ _).2 C (List.mem_append_left _ hC)

theorem componentsFold_cover (adjN : Coord → List Coord) (fuel : Nat) :
    ∀ vs visited acc, ∀ v ∈ vs,
      v ∈ (componentsFold adjN fuel vs visited acc).2 := by
  intro vs
  induction vs with
  | nil => intro visited acc v hv; simp at hv
  | cons w vs ih =>
    intro visited acc v hv
    rw [componentsFold_cons]
    rcases List.mem_cons.mp hv with rfl | hv2
    · split
      · rename_i hcond
        rw [decide_eq_true_eq] at hcond
        exact (componentsFold_mono adjN fuel vs visited acc).1 v hcond
      · refine (componentsFold_mono adjN fuel vs _ _).1 v ?_
        exact (compBFS_mono adjN fuel (v :: visited) [v] [v]).2 v
          (List.mem_cons_self _ _)
    · split
      · exact ih visited acc v hv2
      · exact ih _ _ v hv2

theorem componentsFold_invariant (adjN : Coord → List Coord)
    (frontier : List Coord)
    (hadjN : ∀ x, ∀ y ∈ adjN x, y ∈ frontier)
    (hadjnd : ∀ x, (adjN x).Nodup)
    (hsym : ∀ a y, y ∈ adjN a → a ∈ frontier → a ∈ adjN y)
    (fuel : Nat) (hfuel : frontier.length + 1 ≤ fuel) :
    ∀ vs visited acc, (∀ v ∈ vs, v ∈ frontier) →
      (∀ C ∈ acc, ∀ a ∈ C, a ∈ visited) →
      (∀ x ∈ visited, ∃ C ∈ acc, x ∈ C) →
      (∀ C ∈ acc, ∀ a ∈ C, ∀ y ∈ adjN a, y ∈ C) →
      (∀ C ∈ acc, ∀ a ∈ C, a ∈ frontier) →
      (∀ C ∈ (componentsFold adjN fuel vs visited acc).1, ∀ a ∈ C,
        ∀ y ∈ adjN a, y ∈ C) ∧
      (∀ x ∈ (componentsFold adjN fuel vs visited acc).2,
        ∃ C ∈ (componentsFold adjN fuel vs visited acc).1, x ∈ C) := by
  intro vs
  induction vs with
  | nil =>
    intro visited acc _ _ o2 o3 _
    exact ⟨o3, o2⟩
  | cons v vs ih =>
    intro visited acc hvs o1 o2 o3 o4
    have hvf : v ∈ frontier := hvs v (List.mem_cons_self _ _)
    rw [componentsFold_cons]
    split
    · exact ih visited acc (fun w hw => hvs w (List.mem_cons_of_mem _ hw))
        o1 o2 o3 o4
    · rename_i hcond
      have hv : v ∉ visited := by
        intro hmem
        rw [decide_eq_true_eq] at hcond
        exact hcond hmem
      have bmono := compBFS_mono adjN fuel (v :: visited) [v] [v]
      have bspec := compBFS_spec adjN fuel (v :: visited) [v] [v]
      have bsub := compBFS_subset adjN frontier hadjN fuel (v :: visited)
        [v] [v] (by
          intro x hx
          rw [List.mem_singleton] at hx
          rw [hx]
          exact hvf)
      have bclosed := compBFS_closed adjN frontier hadjN hadjnd fuel
        (v :: visited) [v] [v] (by
          have := List.countP_le_length
            (fun w => !decide (w ∈ v :: visited)) (l := frontier)
          simp only [List.length_singleton]
          omega)
        (by intro x hx; exact hx)
        (by
          intro x hx
          rw [List.mem_singleton] at hx
          rw [hx]
          exact List.mem_cons_self _ _)
        (by
          intro a ha hna
          exact absurd ha hna)
      have hvin : v ∈ (compBFS adjN fuel (v :: visited) [v] [v]).1 :=
        bmono.1 v (List.mem_singleton.mpr rfl)
      have hnewsub : ∀ a ∈ (compBFS adjN fuel (v :: visited) [v] [v]).1,
          a ∈ frontier := bsub
      have hnewnotvis : ∀ a ∈ (compBFS adjN fuel (v :: visited) [v] [v]).1,
          a ∉ visited := by
        intro a ha hmem
        rcases bspec.2.1 a ha with h | h
        · rw [List.mem_singleton] at h
          rw [h] at hmem
          exact hv hmem
        · exact h (List.mem_cons_of_mem _ hmem)
      have hnewclosed : ∀ a ∈ (compBFS adjN fuel (v :: visited) [v] [v]).1,
          ∀ y ∈ adjN a, y ∈ (compBFS adjN fuel (v :: visited) [v] [v]).1 := by
        intro a ha y hy
        have hyvis := bclosed a ha y hy
        rcases bspec.1 y hyvis with h | h
        · rcases List.mem_cons.mp h with rfl | h2
          · exact hvin
          · -- y was visited before: then a would belong to an old component
            exfalso
            obtain ⟨Cy, hCy, hyCy⟩ := o2 y h2
            have haf : a ∈ frontier := hnewsub a ha
            have hadj2 : a ∈ adjN y := hsym a y hy haf
            have haCy : a ∈ Cy := o3 Cy hCy y hyCy a hadj2
            exact hnewnotvis a ha (o1 Cy hCy a haCy)
        · exact h
      refine ih _ _ (fun w hw => hvs w (List.mem_cons_of_mem _ hw)) ?_ ?_ ?_ ?_
      · intro C hC a ha
        rcases List.mem_append.mp hC with h | h
        · exact bmono.2 a (List.mem_cons_of_mem _ (o1 C h a ha))
        · rw [List.mem_singleton] at h
          rw [h] at ha
          refine bspec.2.2 ?_ a ha
          intro x hx
          rw [List.mem_singleton] at hx
          rw [hx]
          exact List.mem_cons_self _ _
      · intro x hx
        rcases bspec.1 x hx with h | h
        · rcases List.mem_cons.mp h with rfl | h2
          · exact ⟨_, List.mem_append_right _ (List.mem_singleton.mpr rfl), hvin⟩
          · obtain ⟨C, hC, hxC⟩ := o2 x h2
            exact ⟨C, List.mem_append_left _ hC, hxC⟩
        · exact ⟨_, List.mem_append_right _ (List.mem_singleton.mpr rfl), h⟩
      · intro C hC a ha y hy
        rcases List.mem_append.mp hC with h | h
        · exact o3 C h a ha y hy
        · rw [List.mem_singleton] at h
          rw [h] at ha ⊢
          exact hnewclosed a ha y hy
      · intro C hC a ha
        rcases List.mem_append.mp hC with h | h
        · exact o4 C h a ha
        · rw [List.mem_singleton] at h
          rw [h] at ha
          exact hnewsub a ha

theorem adjListOf_symm (ccells : List (Coord × List Coord))
    (frontier : List Coord) (x y : Coord)
    (h : y ∈ adjListOf ccells frontier x) (hx : x ∈ frontier) :
    x ∈ adjListOf ccells frontier y := by
  unfold adjListOf at h ⊢
  rw [List.mem_filter] at h ⊢
  obtain ⟨hyf, hshare⟩ := h
  refine ⟨hx, ?_⟩
  unfold sharesConstraint at hshare ⊢
  rw [Bool.and_eq_true, decide_eq_true_eq] at hshare ⊢
  obtain ⟨hne, hany⟩ := hshare
  rw [List.any_eq_true] at hany ⊢
  obtain ⟨k, hk, hkk⟩ := hany
  rw [Bool.and_eq_true] at hkk
  exact ⟨fun he => hne he.symm,
    ⟨k, hk, by rw [Bool.and_eq_true]; exact ⟨hkk.2, hkk.1⟩⟩⟩

theorem componentsOf_spec (b : Board) :
    (∀ C ∈ componentsOf b b.stateForAgent, ∀ a ∈ C,
      ∀ y ∈ adjListOf (constraintCells b b.stateForAgent)
        (frontierOf b b.stateForAgent) a, y ∈ C) ∧
    (∀ v ∈ frontierOf b b.stateForAgent,
      ∃ C ∈ componentsOf b b.stateForAgent, v ∈ C) := by
  have hadjN : ∀ x, ∀ y ∈ adjListOf (constraintCells b b.stateForAgent)
      (frontierOf b b.stateForAgent) x, y ∈ frontierOf b b.stateForAgent :=
    fun x y hy => (List.mem_filter.mp hy).1
  have hadjnd : ∀ x, (adjListOf (constraintCells b b.stateForAgent)
      (frontierOf b b.stateForAgent) x).Nodup :=
    fun x => (List.nodup_dedup _).filter _
  obtain ⟨h1, h2⟩ := componentsFold_invariant
    (adjListOf (constraintCells b b.stateForAgent) (frontierOf b b.stateForAgent))
    (frontierOf b b.stateForAgent) hadjN hadjnd
    (fun a y hy ha => adjListOf_symm _ _ a y hy ha)
    ((frontierOf b b.stateForAgent).length + 2) (by omega)
    (frontierOf b b.stateForAgent) [] []
    (fun v hv => hv) (by simp) (by simp) (by simp) (by simp)
  refine ⟨h1, ?_⟩
  intro v hv
  exact h2 v (componentsFold_cover _ _ _ [] [] v hv)

/-- C10: for every numbered cell with covered neighbours, all of those
covered neighbours lie in a single computed frontier component (the
shared-constraint adjacency links them pairwise), and consequently whenever
some of them fall inside a component, none fall outside it: the
`outside`-skip branch of the local-constraint build is unreachable and no
numbered cell's constraint is dropped for straddling components. -/
theorem constraints_never_straddle (b : Board) :
    (∀ cn ∈ b.stateForAgent.numbers, covOf b b.stateForAgent cn.1 ≠ [] →
      ∃ C ∈ componentsOf b b.stateForAgent,
        ∀ v ∈ covOf b b.stateForAgent cn.1, v ∈ C) ∧
    (∀ cn ∈ b.stateForAgent.numbers, ∀ C ∈ componentsOf b b.stateForAgent,
      (covOf b b.stateForAgent cn.1).filter (fun v => decide (v ∈ C)) ≠ [] →
      (covOf b b.stateForAgent cn.1).filter (fun v => !decide (v ∈ C)) = []) := by
  obtain ⟨hclosed, hcover⟩ := componentsOf_spec b
  have hccell : ∀ cn ∈ b.stateForAgent.numbers,
      covOf b b.stateForAgent cn.1 ≠ [] →
      (cn.1, covOf b b.stateForAgent cn.1) ∈
        constraintCells b b.stateForAgent := by
    intro cn hcn hne
    unfold constraintCells
    rw [List.mem_filterMap]
    refine ⟨cn, hcn, ?_⟩
    rw [if_neg (by
      intro hemp
      exact hne (List.isEmpty_iff.mp hemp))]
  have hfront : ∀ cn ∈ b.stateForAgent.numbers,
      covOf b b.stateForAgent cn.1 ≠ [] →
      ∀ v ∈ covOf b b.stateForAgent cn.1,
        v ∈ frontierOf b b.stateForAgent := by
    intro cn hcn hne v hv
    unfold frontierOf
    rw [List.mem_dedup, List.mem_flatMap]
    exact ⟨(cn.1, covOf b b.stateForAgent cn.1), hccell cn hcn hne, hv⟩
  have hadj : ∀ cn ∈ b.stateForAgent.numbers,
      covOf b b.stateForAgent cn.1 ≠ [] →
      ∀ v ∈ covOf b b.stateForAgent cn.1,
      ∀ w ∈ covOf b b.stateForAgent cn.1, w ≠ v →
        w ∈ adjListOf (constraintCells b b.stateForAgent)
          (frontierOf b b.stateForAgent) v := by
    intro cn hcn hne v hv w hw hwv
    unfold adjListOf
    rw [List.mem_filter]
    refine ⟨hfront cn hcn hne w hw, ?_⟩
    unfold sharesConstraint
    rw [Bool.and_eq_true, decide_eq_true_eq]
    refine ⟨fun he => hwv he.symm, ?_⟩
    rw [List.any_eq_true]
    refine ⟨(cn.1, covOf b b.stateForAgent cn.1), hccell cn hcn hne, ?_⟩
    rw [Bool.and_eq_true, decide_eq_true_eq, decide_eq_true_eq]
    exact ⟨hv, hw⟩
  constructor
  · intro cn hcn hne
    have hh := headI_mem _ hne
    obtain ⟨C, hC, hvC⟩ := hcover _ (hfront cn hcn hne _ hh)
    refine ⟨C, hC, ?_⟩
    intro w hw
    by_cases hwh : w = (covOf b b.stateForAgent cn.1).headI
    · rw [hwh]
      exact hvC
    · exact hclosed C hC _ hvC w (hadj cn hcn hne _ hh w hw hwh)
  · intro cn hcn C hC hfil
    have hex : ∃ v ∈ covOf b b.stateForAgent cn.1,
        decide (v ∈ C) = true := by
      by_contra hno
      push_neg at hno
      exact hfil (List.filter_eq_nil_iff.mpr hno)
    obtain ⟨v, hv, hvC⟩ := hex
    rw [decide_eq_true_eq] at hvC
    have hne : covOf b b.stateForAgent cn.1 ≠ [] :=
      List.ne_nil_of_mem hv
    rw [List.filter_eq_nil_iff]
    intro w hw
    simp only [Bool.not_eq_true', decide_eq_false_iff_not, not_not]
    by_cases hwv : w = v
    · rw [hwv]
      exact hvC
    · exact hclosed C hC v hvC w (hadj cn hcn hne v hv w hw hwv)

/-- Witness for C10 on the revealed 1×5 board: the numbered cell `(0,1)` has
its (single) covered neighbour inside one component. -/
theorem constraints_never_straddle_witness :
    ∃ C ∈ componentsOf (demoSP.reveal (0, 0)).2
      (demoSP.reveal (0, 0)).2.stateForAgent,
      ∀ v ∈ covOf (demoSP.reveal (0, 0)).2
        (demoSP.reveal (0, 0)).2.stateForAgent (0, 1), v ∈ C :=
  (constraints_never_straddle (demoSP.reveal (0, 0)).2).1 ((0, 1), 1)
    (by decide) (by decide)

/-- Witness for C9 on the revealed 1×5 board: the mine pass fires first and
the call returns the single flag action on `(0,2)`. -/
theorem phase1_two_pass_priority_witness :
    (phase1ChooseL (demoSP.reveal (0, 0)).2 0).1 =
      some (Action.flagAct (0, 2)) := by
  rw [(phase1_two_pass_priority (demoSP.reveal (0, 0)).2 0).2.2.1]
  decide

/-- Witness for C5: on the concrete 1×2 board, revealing the non-mine cell
`(0,0)` yields Won, and the reachable-board equivalence instantiated at the
fresh board itself. -/
theorem won_iff_revealed_count_witness :
    ((demo12.reveal (0, 0)).2.status = GStatus.won) ∧
    (demo12.status = GStatus.won ↔
      (demo12.revealedNonMineCount : Int) = 1 * 2 - 1) :=
  ⟨(won_iff_revealed_count (fun _ => 1) 1 2 1 (by decide) (by decide)
      (by decide) (by decide) demo12 OpReach.refl).2
      (fun _ => 1) (0, 0) (by decide) (by decide),
   (won_iff_revealed_count (fun _ => 1) 1 2 1 (by decide) (by decide)
      (by decide) (by decide) demo12 OpReach.refl).1⟩

end Minesweeper
